import Mathlib

/-!
Shallow embedding of the AdGuardHome nftables ipset manager
(internal/ipset, Linux build): config-line parsing, set-handle resolution
with a per-identifier cache, the domain rule table with suffix lookup,
the dedup cache, and the mutation path `Add` → `addToSets` → `addIPs`.

Go strings are modelled as `List Char`; Go maps as association lists; the
kernel transport (nftables connection) as an oracle of pure functions plus
an explicit trace of the calls issued.
-/

set_option linter.unusedVariables false

namespace IpsetMgr

/-- Go strings (config lines, domains, table and set names) as character lists. -/
abbrev Str := List Char

/-- Models Go strings.Split with a one-character separator: always returns at
least one part; a separator occurrence starts a new part. -/
def splitOnChar (sep : Char) : Str → List Str
  | [] => [[]]
  | c :: rest =>
    if c = sep then [] :: splitOnChar sep rest
    else
      match splitOnChar sep rest with
      | [] => [[c]]
      | h :: t => (c :: h) :: t

/-- Number of occurrences of a character in a string. -/
def countChar (ch : Char) : Str → Nat
  | [] => 0
  | c :: rest => (if c = ch then 1 else 0) + countChar ch rest

/-- Number of occurrences of a string in a list of strings. -/
def countKey (dom : Str) : List Str → Nat
  | [] => 0
  | h :: t => (if h = dom then 1 else 0) + countKey dom t

/-- List repeated n times and concatenated. -/
def repList {α : Type} : Nat → List α → List α
  | 0, _ => []
  | n + 1, xs => xs ++ repList n xs

/-- Drop leading whitespace characters. -/
def trimLeft : Str → Str
  | [] => []
  | c :: rest => if c.isWhitespace then trimLeft rest else c :: rest

/-- Models Go strings.TrimSpace: drop leading and trailing whitespace. -/
def trimSpace (s : Str) : Str := (trimLeft (trimLeft s).reverse).reverse

/-- Models Go strings.ToLower on the ASCII domains and identifiers of the config. -/
def toLowerStr (s : Str) : Str := s.map Char.toLower

/-- Association-list lookup, modelling Go map indexing (first matching key wins;
keys are unique by construction in this module). -/
def mapFind {β : Type} : List (Str × β) → Str → Option β
  | [], _ => none
  | (a, b) :: rest, key => if a = key then some b else mapFind rest key

/-- Key type of an nftables set: nftables.TypeIPAddr, nftables.TypeIP6Addr, or
any other type (the default arm of the switch in addToSets). -/
inductive KeyType where
  | ipAddr
  | ip6Addr
  | other
deriving DecidableEq, Repr

/-- The fields of nftables.Set that this module reads: the owning table's name,
the set's name, its key type, and the has-timeout flag. -/
structure NftSet where
  tableName : Str
  name : Str
  keyType : KeyType
  hasTimeout : Bool
deriving DecidableEq, Repr

/-- Go ipInIpsetEntry: the dedup-cache key, a set identifier string plus the
16-byte array form of the address. -/
structure IpInIpsetEntry where
  ipsetName : Str
  ipArr : List Nat
deriving DecidableEq, Repr

/-- The manager state: identifier→handle cache, domain rule table, dedup cache.
The Go struct also holds a logger, the connection and a mutex, which have no
state visible to this module's logic. -/
structure Manager where
  nameToIpset : List (Str × NftSet)
  domainToIpsets : List (Str × List NftSet)
  addedIPs : List IpInIpsetEntry
deriving DecidableEq, Repr

/-- Kernel oracle: result of GetSetByName (key type and has-timeout flag of the
named set, or none when it does not exist), and the error results of
SetAddElements and of the Flush that commits a set's batch. -/
structure Kernel where
  getSetByName : Str → Str → Option (KeyType × Bool)
  setAddElementsErr : Str → Str → List (List Nat) → Option String
  flushErr : Str → Str → Option String

/-- Trace entry for a kernel call. getSet also records the identifier string
under which the result is cached; flush records the set whose queued batch the
connection commits (the Go call itself takes no arguments). -/
inductive KernelCall where
  | getSet (ident tableName setName : Str)
  | addElements (tableName setName : Str) (elements : List (List Nat))
  | flush (tableName setName : Str)
deriving DecidableEq, Repr

/-- The cached identifier of a getSet trace entry. -/
def identOf : KernelCall → Str
  | .getSet n _ _ => n
  | _ => []

/-- Whether a trace entry is an add-elements call. -/
def isAddElements : KernelCall → Bool
  | .addElements _ _ _ => true
  | _ => false

/-- Errors of manager construction: every error wraps the index of the config
line, the raw line text, and a message. -/
inductive ConfigError where
  | lineErr (idx : Nat) (line : Str) (msg : String)
deriving DecidableEq, Repr

/-- Whether an Except result is an error. -/
def isErr {ε α : Type} : Except ε α → Bool
  | .error _ => true
  | .ok _ => false

/-- Models the right-hand-side validation loop of parseIpsetConfigLine: each
identifier is trimmed and must be non-empty. -/
def trimNames : List Str → Except String (List Str)
  | [] => .ok []
  | s :: rest =>
    let s := trimSpace s
    if s = [] then .error "empty ipset name"
    else
      match trimNames rest with
      | .error e => .error e
      | .ok t => .ok (s :: t)

/-- Models parseIpsetConfigLine: trim the line, require exactly one slash
(split into exactly two parts), split both sides on commas, trim identifiers
rejecting empty ones, lowercase and trim hosts. The empty-names early return
mirrors the dead `len(ipsetNames) == 0` branch of the source. -/
def parseIpsetConfigLine (confStr : Str) : Except String (List Str × List Str) :=
  let confStr := trimSpace confStr
  match splitOnChar '/' confStr with
  | [hostsPart, namesPart] =>
    let hosts := splitOnChar ',' hostsPart
    let ipsetNames := splitOnChar ',' namesPart
    if ipsetNames = [] then .ok ([], [])
    else
      match trimNames ipsetNames with
      | .error e => .error e
      | .ok names => .ok (hosts.map fun h => toLowerStr (trimSpace h), names)
  | _ => .error "expected one slash"

/-- Models the identifier loop of parseIpsetConfig: split each identifier on
'#' requiring exactly four fields, require the literal "4" and "inet", then
consult the identifier cache; on a miss issue GetSetByName, require key type
ipv4_addr, and cache the handle. Returns the updated cache, the resolved
handles in order, and the getSet calls issued. -/
def resolveNames (k : Kernel) (idx : Nat) (line : Str)
    (cache : List (Str × NftSet)) :
    List Str → Except ConfigError (List (Str × NftSet) × List NftSet × List KernelCall)
  | [] => .ok (cache, [], [])
  | n :: rest =>
    match splitOnChar '#' n with
    | [p0, p1, tableName, setName] =>
      if p0 ≠ "4".toList then
        .error (.lineErr idx line "only IPv4 sets supported (4#...)")
      else if p1 ≠ "inet".toList then
        .error (.lineErr idx line "only inet family supported")
      else
        match mapFind cache n with
        | some set =>
          match resolveNames k idx line cache rest with
          | .error e => .error e
          | .ok (c, hs, calls) => .ok (c, set :: hs, calls)
        | none =>
          match k.getSetByName tableName setName with
          | none => .error (.lineErr idx line "getting ipset")
          | some (kt, ht) =>
            if kt ≠ KeyType.ipAddr then
              .error (.lineErr idx line "wrong type, expected ipv4_addr")
            else
              let set : NftSet := ⟨tableName, setName, kt, ht⟩
              match resolveNames k idx line ((n, set) :: cache) rest with
              | .error e => .error e
              | .ok (c, hs, calls) =>
                .ok (c, set :: hs, KernelCall.getSet n tableName setName :: calls)
    | _ => .error (.lineErr idx line "wrong format, expected 4#inet#table#set")

/-- Go map-update `m[host] = append(m[host], ipsets...)` on the rule table. -/
def mapAppend (t : List (Str × List NftSet)) (key : Str) (vs : List NftSet) :
    List (Str × List NftSet) :=
  match t with
  | [] => [(key, vs)]
  | (a, b) :: rest =>
    if a = key then (a, b ++ vs) :: rest else (a, b) :: mapAppend rest key vs

/-- Models manager.parseIpsetConfig: for each line (indexed from idx), parse
it, resolve its identifiers against the cache and the kernel, and register the
resolved handle list under every host of the line. Errors wrap the line index
and the raw line text. -/
def parseIpsetConfig (k : Kernel) (idx : Nat) (m : Manager) :
    List Str → Except ConfigError (Manager × List KernelCall)
  | [] => .ok (m, [])
  | confStr :: rest =>
    match parseIpsetConfigLine confStr with
    | .error msg => .error (.lineErr idx confStr msg)
    | .ok (hosts, ipsetNames) =>
      match resolveNames k idx confStr m.nameToIpset ipsetNames with
      | .error e => .error e
      | .ok (cache, ipsets, calls) =>
        let m' : Manager :=
          { m with
            nameToIpset := cache,
            domainToIpsets := hosts.foldl (fun t h => mapAppend t h ipsets) m.domainToIpsets }
        match parseIpsetConfig k (idx + 1) m' rest with
        | .error e => .error e
        | .ok (mFin, calls') => .ok (mFin, calls ++ calls')

/-- Models newManager: parse the config starting from the empty manager state. -/
def newManager (k : Kernel) (lines : List Str) :
    Except ConfigError (Manager × List KernelCall) :=
  parseIpsetConfig k 0 ⟨[], [], []⟩ lines

/-- The suffix of the string after its first '.', if any: models
`i := strings.Index(host, "."); host[i+1:]`. -/
def afterDot : Str → Option Str
  | [] => none
  | c :: rest => if c = '.' then some rest else afterDot rest

/-- The loop of manager.lookupHost: look the host up; on a miss strip through
the first '.'; when no '.' remains fall through to the catch-all key "".
Fuel bounds the number of strips; each strip shortens the host, so fuel equal
to the host length is never exhausted, and the fuel-0 arm coincides with the
loop break (catch-all lookup). Presence in the table (`mapFind … = some`)
models the Go `sets != nil` test: the table only ever stores non-empty slices. -/
def lookupHostFuel (d : List (Str × List NftSet)) : Nat → Str → List NftSet
  | 0, host =>
    match mapFind d host with
    | some sets => sets
    | none => (mapFind d []).getD []
  | fuel + 1, host =>
    match mapFind d host with
    | some sets => sets
    | none =>
      match afterDot host with
      | none => (mapFind d []).getD []
      | some rest => lookupHostFuel d fuel rest

/-- Models manager.lookupHost. -/
def lookupHost (d : List (Str × List NftSet)) (host : Str) : List NftSet :=
  lookupHostFuel d host.length host

/-- IP addresses as byte lists, modelling Go net.IP. -/
abbrev IPBytes := List Nat

/-- The 12-byte v4-in-v6 mapping that prefixes an IPv4 address in 16-byte form. -/
def mapped4 : IPBytes := [0, 0, 0, 0, 0, 0, 0, 0, 0, 0, 0xff, 0xff]

/-- Models net.IP.To16: a 4-byte address is widened, a 16-byte one returned as
is, anything else yields nil. -/
def ipTo16 (ip : IPBytes) : Option IPBytes :=
  if ip.length = 4 then some (mapped4 ++ ip)
  else if ip.length = 16 then some ip
  else none

/-- Models net.IP.To4: a 4-byte address as is, a 16-byte v4-mapped address
narrowed to its last four bytes, anything else nil. -/
def ipTo4 (ip : IPBytes) : Option IPBytes :=
  if ip.length = 4 then some ip
  else if ip.length = 16 ∧ ip.take 12 = mapped4 then some (ip.drop 12)
  else none

/-- The ipArr field of a dedup entry: `copy(e.ipArr[:], ip.To16())` on a zero
16-byte array. -/
def ipArr16 (ip : IPBytes) : IPBytes :=
  match ipTo16 ip with
  | some bs => bs
  | none => List.replicate 16 0

/-- The dedup key `fmt.Sprintf("4#inet#%s#%s", set.Table.Name, set.Name)`. -/
def ipsetKey (set : NftSet) : Str :=
  "4#inet#".toList ++ set.tableName ++ '#' :: set.name

/-- The filtering loop of addIPs, in input order: build the dedup entry, skip
addresses already cached, skip addresses that are not IPv4-representable,
collect the 4-byte element keys and the new entries. -/
def collectElems (added : List IpInIpsetEntry) (key : Str) :
    List IPBytes → List IPBytes × List IpInIpsetEntry
  | [] => ([], [])
  | ip :: rest =>
    let e : IpInIpsetEntry := ⟨key, ipArr16 ip⟩
    let r := collectElems added key rest
    if e ∈ added then r
    else
      match ipTo4 ip with
      | none => r
      | some ipv4 => (ipv4 :: r.1, e :: r.2)

/-- container.MapSet.Add: set-insert into the dedup cache. -/
def cacheAdd (s : List IpInIpsetEntry) (e : IpInIpsetEntry) : List IpInIpsetEntry :=
  if e ∈ s then s else e :: s

/-- The post-success loop of addIPs: for each new entry look its set up in the
registry and cache the entry unless the set has a timeout. The registry always
contains the key of a set being processed (it was stored under exactly this
string during construction); the absent-key arm is vacuous. -/
def recordEntries (reg : List (Str × NftSet)) :
    List IpInIpsetEntry → List IpInIpsetEntry → List IpInIpsetEntry
  | added, [] => added
  | added, e :: rest =>
    let added' :=
      match mapFind reg e.ipsetName with
      | some set => if set.hasTimeout then added else cacheAdd added e
      | none => added
    recordEntries reg added' rest

/-- Result of the mutation path: inserted count, error, resulting manager
state, and the kernel calls issued (in order). -/
structure AddResult where
  n : Nat
  err : Option String
  m : Manager
  calls : List KernelCall
deriving DecidableEq, Repr

/-- Models manager.addIPs: empty input or an empty filtered batch is free of
kernel calls; otherwise one SetAddElements then one Flush, each of which may
fail (returning count 0 and leaving the cache untouched); on success the new
entries of non-timeout sets are cached and the batch size returned. -/
def addIPs (k : Kernel) (m : Manager) (set : NftSet) (ips : List IPBytes) : AddResult :=
  if ips = [] then ⟨0, none, m, []⟩
  else
    let r := collectElems m.addedIPs (ipsetKey set) ips
    let elements := r.1
    let newAddedEntries := r.2
    let n := elements.length
    if n = 0 then ⟨0, none, m, []⟩
    else
      match k.setAddElementsErr set.tableName set.name elements with
      | some e => ⟨0, some e, m, [KernelCall.addElements set.tableName set.name elements]⟩
      | none =>
        match k.flushErr set.tableName set.name with
        | some e =>
          ⟨0, some e, m,
            [KernelCall.addElements set.tableName set.name elements,
             KernelCall.flush set.tableName set.name]⟩
        | none =>
          ⟨n, none,
            { m with addedIPs := recordEntries m.nameToIpset m.addedIPs newAddedEntries },
            [KernelCall.addElements set.tableName set.name elements,
             KernelCall.flush set.tableName set.name]⟩

/-- Models manager.addToSets: per handle switch on the key type — ipv4_addr
handles go through addIPs with the first error returned together with the
count accumulated so far; ipv6_addr handles are skipped; any other key type is
an error. The ip6s argument is accepted and never used, as in the source. -/
def addToSets (k : Kernel) (m : Manager) (ip4s ip6s : List IPBytes) :
    List NftSet → AddResult
  | [] => ⟨0, none, m, []⟩
  | set :: rest =>
    match set.keyType with
    | .ipAddr =>
      let r := addIPs k m set ip4s
      match r.err with
      | some e => ⟨r.n, some e, r.m, r.calls⟩
      | none =>
        let r2 := addToSets k r.m ip4s ip6s rest
        ⟨r.n + r2.n, r2.err, r2.m, r.calls ++ r2.calls⟩
    | .ip6Addr => addToSets k m ip4s ip6s rest
    | .other => ⟨0, some "set has unexpected type", m, []⟩

/-- Models manager.Add: look the host up; an empty handle list returns (0, nil)
with no kernel interaction; otherwise run addToSets. -/
def Manager.add (k : Kernel) (m : Manager) (host : Str) (ip4s ip6s : List IPBytes) :
    AddResult :=
  let sets := lookupHost m.domainToIpsets host
  if sets.length = 0 then ⟨0, none, m, []⟩
  else addToSets k m ip4s ip6s sets

/-! Definitions written from the spec's words, for comparison with the code. -/

/-- The suffixes of the host that follow each '.' in order of occurrence. -/
def dotSuffixes : Str → List Str
  | [] => []
  | c :: rest => if c = '.' then rest :: dotSuffixes rest else dotSuffixes rest

/-- Modelled from the spec: try the full domain string, then each
strip-leftmost-label suffix in order, stopping at the first key present in the
rule table; when none matches, return the sets registered under the catch-all
key "" (possibly none). -/
def specLookup (d : List (Str × List NftSet)) (host : Str) : List NftSet :=
  match (host :: dotSuffixes host).findSome? (mapFind d) with
  | some sets => sets
  | none => (mapFind d []).getD []

/-! Decidable predicates used by the claims about configuration handling. -/

/-- A trimmed identifier of bad shape: not exactly four '#'-fields, or the
first field not the literal "4", or the second not the literal "inet". -/
def identBad (n : Str) : Bool :=
  match splitOnChar '#' n with
  | [p0, p1, _, _] => decide (p0 ≠ "4".toList) || decide (p1 ≠ "inet".toList)
  | _ => true

/-- A line failing the parse stage: not exactly one '/', or some identifier on
the right side trimming to empty. -/
def parseBad (line : Str) : Bool :=
  match splitOnChar '/' (trimSpace line) with
  | [_, namesPart] => (splitOnChar ',' namesPart).any fun x => decide (trimSpace x = [])
  | _ => true

/-- The left (hosts) side of a line after trimming and slash-splitting. -/
def leftOf (line : Str) : Str :=
  match splitOnChar '/' (trimSpace line) with
  | [l, _] => l
  | _ => []

/-- The right (identifiers) side of a line after trimming and slash-splitting. -/
def rightOf (line : Str) : Str :=
  match splitOnChar '/' (trimSpace line) with
  | [_, r] => r
  | _ => []

/-- The normalized hosts of a line: split on ',', trimmed and lowercased. -/
def hostsSpec (line : Str) : List Str :=
  (splitOnChar ',' (leftOf line)).map fun h => toLowerStr (trimSpace h)

/-- The trimmed identifiers of a line: split on ',' and trimmed. -/
def namesSpec (line : Str) : List Str :=
  (splitOnChar ',' (rightOf line)).map trimSpace

/-- A malformed config line in the sense of claim C4: bad parse stage or some
identifier of bad shape. -/
def lineMalformed (line : Str) : Bool :=
  parseBad line || (namesSpec line).any identBad

/-- The handle an identifier resolves to, independent of any cache state:
shape checks, then the kernel query, then the key-type check. -/
def specResolve (k : Kernel) (n : Str) : Option NftSet :=
  match splitOnChar '#' n with
  | [p0, p1, tableName, setName] =>
    if p0 = "4".toList ∧ p1 = "inet".toList then
      match k.getSetByName tableName setName with
      | some (kt, ht) =>
        if kt = KeyType.ipAddr then some ⟨tableName, setName, kt, ht⟩ else none
      | none => none
    else none
  | _ => none

/-- Whether an identifier names an existing kernel set of IPv4 key type
(shape aside, the resolution conditions of claim C5). -/
def identResolvable (k : Kernel) (n : Str) : Bool :=
  match splitOnChar '#' n with
  | [_, _, tableName, setName] =>
    match k.getSetByName tableName setName with
    | some (kt, _) => decide (kt = KeyType.ipAddr)
    | none => false
  | _ => false

/-- The resolved handle list of one line. -/
def lineSetsSpec (k : Kernel) (line : Str) : List NftSet :=
  (namesSpec line).filterMap (specResolve k)

/-- The rule-table entry claim C9 predicts for a domain: per line, the line's
handle list once per occurrence of the domain among the line's hosts,
concatenated in line order. -/
def tableSpec (k : Kernel) (dom : Str) : List Str → List NftSet
  | [] => []
  | l :: rest =>
    repList (countKey dom (hostsSpec l)) (lineSetsSpec k l) ++ tableSpec k dom rest

/-- A dedup entry that does not belong to a timeout-bearing set of the registry. -/
def entryOK (reg : List (Str × NftSet)) (e : IpInIpsetEntry) : Bool :=
  match mapFind reg e.ipsetName with
  | some set => !set.hasTimeout
  | none => true

/-- The dedup-cache invariant of claim C6: no cached entry belongs to a
timeout-bearing set. -/
def cacheTimeoutFree (m : Manager) : Bool :=
  m.addedIPs.all (entryOK m.nameToIpset)

/-- A cache whose every entry agrees with cache-free resolution. -/
def cacheCoherent (k : Kernel) (cache : List (Str × NftSet)) : Prop :=
  ∀ n s, mapFind cache n = some s → specResolve k n = some s

/-! Concrete kernels and managers used by the witnesses. -/

/-- A kernel on which every query succeeds with a persistent IPv4 set and
every mutation succeeds. -/
def kernelOK : Kernel :=
  ⟨fun _ _ => some (KeyType.ipAddr, false), fun _ _ _ => none, fun _ _ => none⟩

/-- A kernel whose sets all carry timeouts; every call succeeds. -/
def kernelTimeout : Kernel :=
  ⟨fun _ _ => some (KeyType.ipAddr, true), fun _ _ _ => none, fun _ _ => none⟩

/-- A kernel that fails the flush of set "b" and nothing else. -/
def kernelFlushB : Kernel :=
  ⟨fun _ _ => some (KeyType.ipAddr, false), fun _ _ _ => none,
    fun _ s => if s = "b".toList then some "flush failed" else none⟩

/-- A persistent IPv4 handle named "s" in table "t". -/
def setTS : NftSet := ⟨"t".toList, "s".toList, KeyType.ipAddr, false⟩

/-- Persistent IPv4 handles "a", "b", "c" in table "t". -/
def setA : NftSet := ⟨"t".toList, "a".toList, KeyType.ipAddr, false⟩

def setB : NftSet := ⟨"t".toList, "b".toList, KeyType.ipAddr, false⟩

def setC : NftSet := ⟨"t".toList, "c".toList, KeyType.ipAddr, false⟩

/-- A timeout-bearing IPv4 handle. -/
def setTimeout : NftSet := ⟨"t".toList, "s".toList, KeyType.ipAddr, true⟩

/-- An IPv6-keyed handle. -/
def set6 : NftSet := ⟨"t".toList, "six".toList, KeyType.ip6Addr, false⟩

/-- A manager with one rule: example.com → setTS. -/
def mC1 : Manager :=
  ⟨[(ipsetKey setTS, setTS)], [("example.com".toList, [setTS])], []⟩

/-- A rule table with distinct lists on two suffix levels. -/
def dC2 : List (Str × List NftSet) :=
  [("a.example.com".toList, [setA]), ("example.com".toList, [setB])]

/-- A manager with one rule mapping example.com to three handles. -/
def mC3 : Manager :=
  ⟨[(ipsetKey setA, setA)], [("example.com".toList, [setA, setB, setC])], []⟩

/-- A manager with one rule mapping example.com to a timeout-bearing handle. -/
def mC6 : Manager :=
  ⟨[(ipsetKey setTimeout, setTimeout)], [("example.com".toList, [setTimeout])], []⟩

/-- Persistent IPv4 handles "s1" and "s2" in table "t". -/
def setS1 : NftSet := ⟨"t".toList, "s1".toList, KeyType.ipAddr, false⟩

def setS2 : NftSet := ⟨"t".toList, "s2".toList, KeyType.ipAddr, false⟩

/-- Config lines referencing the identifier 4#inet#t#s from two lines. -/
def lines5V : List Str := ["a.com/4#inet#t#s".toList, "b.com/4#inet#t#s,4#inet#t#s2".toList]

/-- The manager lines5V builds. -/
def m5V : Manager :=
  ⟨[("4#inet#t#s2".toList, setS2), ("4#inet#t#s".toList, setTS)],
   [("a.com".toList, [setTS]), ("b.com".toList, [setTS, setS2])], []⟩

/-- The control-plane trace of building lines5V: one query per identifier. -/
def tr5V : List KernelCall :=
  [.getSet "4#inet#t#s".toList "t".toList "s".toList,
   .getSet "4#inet#t#s2".toList "t".toList "s2".toList]

/-- Config lines registering the same domain twice. -/
def lines9V : List Str := ["a.com/4#inet#t#s1".toList, "a.com/4#inet#t#s2".toList]

/-- The manager lines9V builds: the two lines' sets concatenated. -/
def m9V : Manager :=
  ⟨[("4#inet#t#s2".toList, setS2), ("4#inet#t#s1".toList, setS1)],
   [("a.com".toList, [setS1, setS2])], []⟩

/-- The control-plane trace of building lines9V. -/
def tr9V : List KernelCall :=
  [.getSet "4#inet#t#s1".toList "t".toList "s1".toList,
   .getSet "4#inet#t#s2".toList "t".toList "s2".toList]

/-! Helper lemmas. -/

theorem splitOnChar_ne_nil (sep : Char) (s : Str) : splitOnChar sep s ≠ [] := by
  cases s with
  | nil => simp [splitOnChar]
  | cons c rest =>
    by_cases hc : c = sep
    · simp [splitOnChar, hc]
    · simp only [splitOnChar, if_neg hc]
      split <;> simp

theorem splitOnChar_length (sep : Char) :
    ∀ s : Str, (splitOnChar sep s).length = countChar sep s + 1 := by
  intro s
  induction s with
  | nil => simp [splitOnChar, countChar]
  | cons c rest ih =>
    by_cases hc : c = sep
    · simp [splitOnChar, hc, countChar, ih]; omega
    · simp only [splitOnChar, if_neg hc, countChar, if_neg hc]
      cases hs : splitOnChar sep rest with
      | nil => exact absurd hs (splitOnChar_ne_nil sep rest)
      | cons h t =>
        have := ih
        rw [hs] at this
        simp at this ⊢
        omega

theorem afterDot_lt : ∀ {s rest : Str}, afterDot s = some rest → rest.length < s.length := by
  intro s
  induction s with
  | nil => intro rest h; simp [afterDot] at h
  | cons c cs ih =>
    intro rest h
    by_cases hc : c = '.'
    · simp only [afterDot, if_pos hc, Option.some.injEq] at h
      subst h
      simp
    · simp only [afterDot, if_neg hc] at h
      exact Nat.lt_succ_of_lt (ih h)

theorem dotSuffixes_of_afterDot_none : ∀ {s : Str}, afterDot s = none → dotSuffixes s = [] := by
  intro s
  induction s with
  | nil => intro _; simp [dotSuffixes]
  | cons c cs ih =>
    intro h
    by_cases hc : c = '.'
    · simp [afterDot, hc] at h
    · simp only [afterDot, if_neg hc] at h
      simp [dotSuffixes, hc, ih h]

theorem dotSuffixes_of_afterDot_some :
    ∀ {s rest : Str}, afterDot s = some rest → dotSuffixes s = rest :: dotSuffixes rest := by
  intro s
  induction s with
  | nil => intro rest h; simp [afterDot] at h
  | cons c cs ih =>
    intro rest h
    by_cases hc : c = '.'
    · simp only [afterDot, if_pos hc, Option.some.injEq] at h
      subst h
      simp [dotSuffixes, hc]
    · simp only [afterDot, if_neg hc] at h
      simp [dotSuffixes, hc, ih h]

theorem findSome?_eq_some_src {α β : Type} (f : α → Option β) :
    ∀ (l : List α) (b : β), l.findSome? f = some b → ∃ a, a ∈ l ∧ f a = some b := by
  intro l
  induction l with
  | nil => intro b h; simp [List.findSome?] at h
  | cons a rest ih =>
    intro b h
    cases hf : f a with
    | some v =>
      rw [List.findSome?_cons, hf] at h
      exact ⟨a, List.mem_cons_self a rest, hf.trans h⟩
    | none =>
      rw [List.findSome?_cons, hf] at h
      obtain ⟨x, hx, hfx⟩ := ih b h
      exact ⟨x, List.mem_cons_of_mem a hx, hfx⟩

theorem lookupHostFuel_spec (d : List (Str × List NftSet)) :
    ∀ (fuel : Nat) (host : Str), host.length ≤ fuel →
      lookupHostFuel d fuel host = specLookup d host := by
  intro fuel
  induction fuel with
  | zero =>
    intro host hle
    have hnil : host = [] := List.eq_nil_of_length_eq_zero (Nat.le_zero.mp hle)
    subst hnil
    cases h : mapFind d ([] : Str) <;>
      simp [lookupHostFuel, specLookup, dotSuffixes, List.findSome?_cons, h]
  | succ f ih =>
    intro host hle
    cases hf : mapFind d host with
    | some sets => simp [lookupHostFuel, specLookup, List.findSome?_cons, hf]
    | none =>
      cases ha : afterDot host with
      | none =>
        have hds := dotSuffixes_of_afterDot_none ha
        simp [lookupHostFuel, specLookup, hf, ha, hds, List.findSome?_cons]
      | some rest =>
        have hds := dotSuffixes_of_afterDot_some ha
        have hlt := afterDot_lt ha
        have hle' : rest.length ≤ f := by omega
        have hrec : lookupHostFuel d (f + 1) host = lookupHostFuel d f rest := by
          simp [lookupHostFuel, hf, ha]
        rw [hrec, ih rest hle']
        simp only [specLookup, hds, List.findSome?_cons, hf]

theorem lookupHost_eq_specLookup (d : List (Str × List NftSet)) (host : Str) :
    lookupHost d host = specLookup d host :=
  lookupHostFuel_spec d host.length host (Nat.le_refl _)

/-- C2: suffix lookup tries the full domain, then each strip-leftmost-label
suffix in order, stopping at the first key present, falling back to the
catch-all key ""; the first match fully shadows less specific registrations:
with both "example.com" and "a.example.com" registered with distinct lists and
"x.a.example.com" itself unregistered, lookup of "x.a.example.com" returns the
"a.example.com" list and never the "example.com" one. -/
theorem claim_C2 (d : List (Str × List NftSet)) (L1 L2 : List NftSet)
    (h0 : mapFind d "x.a.example.com".toList = none)
    (h2 : mapFind d "a.example.com".toList = some L2)
    (h1 : mapFind d "example.com".toList = some L1)
    (hne : L1 ≠ L2) :
    (∀ (d' : List (Str × List NftSet)) (host : Str), lookupHost d' host = specLookup d' host) ∧
    lookupHost d "x.a.example.com".toList = L2 ∧
    lookupHost d "x.a.example.com".toList ≠ L1 := by
  have hds : dotSuffixes "x.a.example.com".toList =
      ["a.example.com".toList, "example.com".toList, "com".toList] := by decide
  have hmain : lookupHost d "x.a.example.com".toList = L2 := by
    rw [lookupHost_eq_specLookup]
    unfold specLookup
    rw [hds]
    simp only [List.findSome?_cons, h0, h2]
  exact ⟨lookupHost_eq_specLookup, hmain, fun hcontra => hne (hcontra ▸ hmain ▸ rfl)⟩

/-- C7: when the domain lookup yields no sets, Add returns (0, nil), performs
zero kernel calls and leaves the whole manager state unchanged. -/
theorem claim_C7 (k : Kernel) (m : Manager) (host : Str) (ip4s ip6s : List IPBytes)
    (h : lookupHost m.domainToIpsets host = []) :
    Manager.add k m host ip4s ip6s = ⟨0, none, m, []⟩ := by
  simp [Manager.add, h]

theorem addToSets_ip6_irrel (k : Kernel) (ip4s ip6s ip6s' : List IPBytes) :
    ∀ (sets : List NftSet) (m : Manager),
      addToSets k m ip4s ip6s sets = addToSets k m ip4s ip6s' sets := by
  intro sets
  induction sets with
  | nil => intro m; rfl
  | cons s rest ih =>
    intro m
    cases hk : s.keyType with
    | ipAddr =>
      simp only [addToSets, hk]
      cases herr : (addIPs k m s ip4s).err <;> simp [herr, ih]
    | ip6Addr => simp only [addToSets, hk]; exact ih m
    | other => simp [addToSets, hk]

theorem addToSets_all_ip6 (k : Kernel) (ip4s ip6s : List IPBytes) :
    ∀ (sets : List NftSet) (m : Manager),
      (∀ s ∈ sets, s.keyType = KeyType.ip6Addr) →
      addToSets k m ip4s ip6s sets = ⟨0, none, m, []⟩ := by
  intro sets
  induction sets with
  | nil => intro m _; rfl
  | cons s rest ih =>
    intro m hall
    have hs : s.keyType = KeyType.ip6Addr := hall s (List.mem_cons_self s rest)
    simp only [addToSets, hs]
    exact ih m fun x hx => hall x (List.mem_cons_of_mem s hx)

/-- C8: handles of IPv6 key type are skipped without error and without kernel
mutation; the ip6s argument never influences the result, so the returned count
never includes IPv6 addresses; a handle list of only IPv6 handles yields
(0, nil) with no kernel calls. -/
theorem claim_C8 :
    (∀ (k : Kernel) (m : Manager) (ip4s ip6s ip6s' : List IPBytes) (sets : List NftSet),
      addToSets k m ip4s ip6s sets = addToSets k m ip4s ip6s' sets) ∧
    (∀ (k : Kernel) (m : Manager) (host : Str) (ip4s ip6s ip6s' : List IPBytes),
      Manager.add k m host ip4s ip6s = Manager.add k m host ip4s ip6s') ∧
    (∀ (k : Kernel) (m : Manager) (ip4s ip6s : List IPBytes) (s : NftSet) (rest : List NftSet),
      s.keyType = KeyType.ip6Addr →
      addToSets k m ip4s ip6s (s :: rest) = addToSets k m ip4s ip6s rest) ∧
    (∀ (k : Kernel) (m : Manager) (ip4s ip6s : List IPBytes) (sets : List NftSet),
      (∀ s ∈ sets, s.keyType = KeyType.ip6Addr) →
      addToSets k m ip4s ip6s sets = ⟨0, none, m, []⟩) := by
  refine ⟨fun k m i4 i6 i6' sets => addToSets_ip6_irrel k i4 i6 i6' sets m, ?_, ?_, ?_⟩
  · intro k m host i4 i6 i6'
    unfold Manager.add
    by_cases hz : (lookupHost m.domainToIpsets host).length = 0
    · simp [hz]
    · simp [hz, addToSets_ip6_irrel k i4 i6 i6' (lookupHost m.domainToIpsets host) m]
  · intro k m i4 i6 s rest hs
    simp [addToSets, hs]
  · exact fun k m i4 i6 sets hall => addToSets_all_ip6 k i4 i6 sets m hall

/-- C1: for a non-timeout IPv4 handle, adding the same (domain, IPv4 address)
twice yields count 1 then count 0; the second call issues no kernel call at
all, so exactly one add-elements call is made in total for that address. -/
theorem claim_C1 (k : Kernel) (m : Manager) (h : NftSet) (d : Str) (ip ip4 : IPBytes)
    (hl : lookupHost m.domainToIpsets d = [h])
    (hkt : h.keyType = KeyType.ipAddr)
    (hto : h.hasTimeout = false)
    (hreg : mapFind m.nameToIpset (ipsetKey h) = some h)
    (hnc : (⟨ipsetKey h, ipArr16 ip⟩ : IpInIpsetEntry) ∉ m.addedIPs)
    (h4 : ipTo4 ip = some ip4)
    (hae : k.setAddElementsErr h.tableName h.name [ip4] = none)
    (hfl : k.flushErr h.tableName h.name = none) :
    (Manager.add k m d [ip] []).n = 1 ∧
    (Manager.add k m d [ip] []).err = none ∧
    ((Manager.add k m d [ip] []).calls ++
      (Manager.add k (Manager.add k m d [ip] []).m d [ip] []).calls).countP isAddElements = 1 ∧
    (Manager.add k (Manager.add k m d [ip] []).m d [ip] []).n = 0 ∧
    (Manager.add k (Manager.add k m d [ip] []).m d [ip] []).err = none ∧
    (Manager.add k (Manager.add k m d [ip] []).m d [ip] []).calls = [] := by
  have hc1 : collectElems m.addedIPs (ipsetKey h) [ip] =
      ([ip4], [⟨ipsetKey h, ipArr16 ip⟩]) := by
    simp [collectElems, hnc, h4]
  have hips1 : addIPs k m h [ip] =
      ⟨1, none, { m with addedIPs := ⟨ipsetKey h, ipArr16 ip⟩ :: m.addedIPs },
        [KernelCall.addElements h.tableName h.name [ip4],
         KernelCall.flush h.tableName h.name]⟩ := by
    simp [addIPs, hc1, hae, hfl, recordEntries, hreg, hto, cacheAdd, hnc]
  have haddto1 : addToSets k m [ip] [] [h] =
      ⟨1, none, { m with addedIPs := ⟨ipsetKey h, ipArr16 ip⟩ :: m.addedIPs },
        [KernelCall.addElements h.tableName h.name [ip4],
         KernelCall.flush h.tableName h.name]⟩ := by
    simp [addToSets, hkt, hips1]
  have e1 : Manager.add k m d [ip] [] =
      ⟨1, none, { m with addedIPs := ⟨ipsetKey h, ipArr16 ip⟩ :: m.addedIPs },
        [KernelCall.addElements h.tableName h.name [ip4],
         KernelCall.flush h.tableName h.name]⟩ := by
    simp [Manager.add, hl, haddto1]
  have hc2 : collectElems (⟨ipsetKey h, ipArr16 ip⟩ :: m.addedIPs) (ipsetKey h) [ip] =
      ([], []) := by
    simp [collectElems]
  have hips2 : addIPs k { m with addedIPs := ⟨ipsetKey h, ipArr16 ip⟩ :: m.addedIPs } h [ip] =
      ⟨0, none, { m with addedIPs := ⟨ipsetKey h, ipArr16 ip⟩ :: m.addedIPs }, []⟩ := by
    simp [addIPs, hc2]
  have e2 : Manager.add k { m with addedIPs := ⟨ipsetKey h, ipArr16 ip⟩ :: m.addedIPs } d [ip] [] =
      ⟨0, none, { m with addedIPs := ⟨ipsetKey h, ipArr16 ip⟩ :: m.addedIPs }, []⟩ := by
    have hl2 : lookupHost ({ m with addedIPs := ⟨ipsetKey h, ipArr16 ip⟩ :: m.addedIPs } :
        Manager).domainToIpsets d = [h] := hl
    simp [Manager.add, hl2, addToSets, hkt, hips2]
  rw [e1]
  simp only [e2]
  simp [List.countP_cons, isAddElements]

theorem recordEntries_all (reg : List (Str × NftSet)) :
    ∀ (es added : List IpInIpsetEntry),
      added.all (entryOK reg) = true →
      (recordEntries reg added es).all (entryOK reg) = true := by
  intro es
  induction es with
  | nil => intro added hadd; exact hadd
  | cons e rest ih =>
    intro added hadd
    simp only [recordEntries]
    cases hm : mapFind reg e.ipsetName with
    | none => exact ih added hadd
    | some set =>
      show (recordEntries reg (if set.hasTimeout then added else cacheAdd added e) rest).all
        (entryOK reg) = true
      by_cases hto : set.hasTimeout = true
      · rw [if_pos hto]; exact ih added hadd
      · rw [if_neg hto]
        by_cases he : e ∈ added
        · rw [show cacheAdd added e = added by simp [cacheAdd, he]]
          exact ih added hadd
        · rw [show cacheAdd added e = e :: added by simp [cacheAdd, he]]
          apply ih
          simp only [List.all_cons, hadd, Bool.and_true]
          simp only [entryOK, hm]
          cases hb : set.hasTimeout with
          | false => rfl
          | true => exact absurd hb hto

theorem addIPs_m_eq (k : Kernel) (m : Manager) (set : NftSet) (ips : List IPBytes) :
    (addIPs k m set ips).m = m ∨
    (addIPs k m set ips).m =
      { m with addedIPs :=
          recordEntries m.nameToIpset m.addedIPs (collectElems m.addedIPs (ipsetKey set) ips).2 } := by
  simp only [addIPs]
  split
  · exact Or.inl rfl
  · split
    · exact Or.inl rfl
    · split
      · exact Or.inl rfl
      · split
        · exact Or.inl rfl
        · exact Or.inr rfl

theorem addIPs_frame (k : Kernel) (m : Manager) (set : NftSet) (ips : List IPBytes) :
    (addIPs k m set ips).m.nameToIpset = m.nameToIpset ∧
    (addIPs k m set ips).m.domainToIpsets = m.domainToIpsets := by
  rcases addIPs_m_eq k m set ips with h | h <;> rw [h] <;> exact ⟨rfl, rfl⟩

theorem addIPs_ctf (k : Kernel) (m : Manager) (set : NftSet) (ips : List IPBytes)
    (hm : cacheTimeoutFree m = true) : cacheTimeoutFree (addIPs k m set ips).m = true := by
  rcases addIPs_m_eq k m set ips with h | h <;> rw [h]
  · exact hm
  · exact recordEntries_all m.nameToIpset _ m.addedIPs hm

theorem addToSets_frame (k : Kernel) (ip4s ip6s : List IPBytes) :
    ∀ (sets : List NftSet) (m : Manager),
      (addToSets k m ip4s ip6s sets).m.nameToIpset = m.nameToIpset ∧
      (addToSets k m ip4s ip6s sets).m.domainToIpsets = m.domainToIpsets := by
  intro sets
  induction sets with
  | nil => intro m; exact ⟨rfl, rfl⟩
  | cons s rest ih =>
    intro m
    cases hk : s.keyType with
    | ipAddr =>
      simp only [addToSets, hk]
      cases herr : (addIPs k m s ip4s).err with
      | some e => simp only [herr]; exact addIPs_frame k m s ip4s
      | none =>
        simp only [herr]
        have h1 := addIPs_frame k m s ip4s
        have h2 := ih (addIPs k m s ip4s).m
        exact ⟨h2.1.trans h1.1, h2.2.trans h1.2⟩
    | ip6Addr => simp only [addToSets, hk]; exact ih m
    | other => simp [addToSets, hk]

theorem addToSets_ctf (k : Kernel) (ip4s ip6s : List IPBytes) :
    ∀ (sets : List NftSet) (m : Manager), cacheTimeoutFree m = true →
      cacheTimeoutFree (addToSets k m ip4s ip6s sets).m = true := by
  intro sets
  induction sets with
  | nil => intro m hm; exact hm
  | cons s rest ih =>
    intro m hm
    cases hk : s.keyType with
    | ipAddr =>
      simp only [addToSets, hk]
      cases herr : (addIPs k m s ip4s).err with
      | some e => simp only [herr]; exact addIPs_ctf k m s ip4s hm
      | none => simp only [herr]; exact ih _ (addIPs_ctf k m s ip4s hm)
    | ip6Addr => simp only [addToSets, hk]; exact ih m hm
    | other => simp [addToSets, hk, hm]

theorem managerAdd_eq_cases (k : Kernel) (m : Manager) (host : Str) (ip4s ip6s : List IPBytes) :
    Manager.add k m host ip4s ip6s = ⟨0, none, m, []⟩ ∨
    Manager.add k m host ip4s ip6s = addToSets k m ip4s ip6s (lookupHost m.domainToIpsets host) := by
  by_cases hz : (lookupHost m.domainToIpsets host).length = 0
  · exact Or.inl (by simp [Manager.add, hz])
  · exact Or.inr (by simp [Manager.add, hz])

theorem managerAdd_frame (k : Kernel) (m : Manager) (host : Str) (ip4s ip6s : List IPBytes) :
    (Manager.add k m host ip4s ip6s).m.nameToIpset = m.nameToIpset ∧
    (Manager.add k m host ip4s ip6s).m.domainToIpsets = m.domainToIpsets := by
  rcases managerAdd_eq_cases k m host ip4s ip6s with h | h <;> rw [h]
  · exact ⟨rfl, rfl⟩
  · exact addToSets_frame k ip4s ip6s (lookupHost m.domainToIpsets host) m

theorem parseIpsetConfig_addedIPs (k : Kernel) :
    ∀ (lines : List Str) (idx : Nat) (m mf : Manager) (calls : List KernelCall),
      parseIpsetConfig k idx m lines = .ok (mf, calls) → mf.addedIPs = m.addedIPs := by
  intro lines
  induction lines with
  | nil =>
    intro idx m mf calls h
    simp only [parseIpsetConfig, Except.ok.injEq, Prod.mk.injEq] at h
    rw [← h.1]
  | cons l rest ih =>
    intro idx m mf calls h
    simp only [parseIpsetConfig] at h
    split at h
    · simp at h
    · split at h
      · simp at h
      · split at h
        · simp at h
        · rename_i mFin calls2 hrec
          simp only [Except.ok.injEq, Prod.mk.injEq] at h
          rw [← h.1]
          exact (ih (idx + 1) _ mFin calls2 hrec).trans rfl

/-- C6: the dedup cache never holds an entry of a timeout-bearing set — the
invariant holds after construction and is preserved by Add — and a
timeout-bearing IPv4 handle gets count 1 and its own add-elements kernel call
on both of two identical Add calls, the cache staying unchanged. -/
theorem claim_C6 :
    (∀ (k : Kernel) (m : Manager) (d : Str) (ip4s ip6s : List IPBytes),
      cacheTimeoutFree m = true → cacheTimeoutFree (Manager.add k m d ip4s ip6s).m = true) ∧
    (∀ (k : Kernel) (lines : List Str) (m : Manager) (tr : List KernelCall),
      newManager k lines = .ok (m, tr) → cacheTimeoutFree m = true) ∧
    (∀ (k : Kernel) (m : Manager) (h : NftSet) (d : Str) (ip ip4 : IPBytes),
      lookupHost m.domainToIpsets d = [h] →
      h.keyType = KeyType.ipAddr →
      h.hasTimeout = true →
      mapFind m.nameToIpset (ipsetKey h) = some h →
      (⟨ipsetKey h, ipArr16 ip⟩ : IpInIpsetEntry) ∉ m.addedIPs →
      ipTo4 ip = some ip4 →
      k.setAddElementsErr h.tableName h.name [ip4] = none →
      k.flushErr h.tableName h.name = none →
      (Manager.add k m d [ip] []).n = 1 ∧
      (Manager.add k m d [ip] []).err = none ∧
      (Manager.add k m d [ip] []).calls.countP isAddElements = 1 ∧
      (Manager.add k m d [ip] []).m = m ∧
      (Manager.add k (Manager.add k m d [ip] []).m d [ip] []).n = 1 ∧
      (Manager.add k (Manager.add k m d [ip] []).m d [ip] []).err = none ∧
      (Manager.add k (Manager.add k m d [ip] []).m d [ip] []).calls.countP isAddElements = 1) := by
  refine ⟨?_, ?_, ?_⟩
  · intro k m d i4 i6 hm
    rcases managerAdd_eq_cases k m d i4 i6 with h | h <;> rw [h]
    · exact hm
    · exact addToSets_ctf k i4 i6 (lookupHost m.domainToIpsets d) m hm
  · intro k lines m tr h
    have hadd : m.addedIPs = (⟨[], [], []⟩ : Manager).addedIPs :=
      parseIpsetConfig_addedIPs k lines 0 ⟨[], [], []⟩ m tr h
    simp [cacheTimeoutFree, hadd]
  · intro k m h d ip ip4 hl hkt hto hreg hnc h4 hae hfl
    have hc1 : collectElems m.addedIPs (ipsetKey h) [ip] =
        ([ip4], [⟨ipsetKey h, ipArr16 ip⟩]) := by
      simp [collectElems, hnc, h4]
    have hips1 : addIPs k m h [ip] =
        ⟨1, none, m,
          [KernelCall.addElements h.tableName h.name [ip4],
           KernelCall.flush h.tableName h.name]⟩ := by
      simp [addIPs, hc1, hae, hfl, recordEntries, hreg, hto]
    have e1 : Manager.add k m d [ip] [] =
        ⟨1, none, m,
          [KernelCall.addElements h.tableName h.name [ip4],
           KernelCall.flush h.tableName h.name]⟩ := by
      simp [Manager.add, hl, addToSets, hkt, hips1]
    rw [e1]
    simp only []
    rw [e1]
    simp [List.countP_cons, isAddElements]

/-- C3: the first kernel error in an Add call aborts the remaining handles and
is returned together with the count from the handles completed before it;
completed handles keep their kernel effects and cache entries, while a handle
whose add-elements or flush fails leaves the manager state — in particular the
dedup cache — untouched for that batch, even when the add-elements call itself
succeeded and only the flush failed. -/
theorem claim_C3 :
    (∀ (k : Kernel) (m : Manager) (set : NftSet) (ips : List IPBytes) (e : String),
      (addIPs k m set ips).err = some e → (addIPs k m set ips).m = m ∧ (addIPs k m set ips).n = 0) ∧
    (∀ (k : Kernel) (m : Manager) (sA sB sC : NftSet) (d : Str) (ip ip4 : IPBytes) (e : String),
      lookupHost m.domainToIpsets d = [sA, sB, sC] →
      sA.keyType = KeyType.ipAddr →
      sB.keyType = KeyType.ipAddr →
      sA.hasTimeout = false →
      mapFind m.nameToIpset (ipsetKey sA) = some sA →
      (⟨ipsetKey sA, ipArr16 ip⟩ : IpInIpsetEntry) ∉ m.addedIPs →
      (⟨ipsetKey sB, ipArr16 ip⟩ : IpInIpsetEntry) ∉ m.addedIPs →
      ipsetKey sB ≠ ipsetKey sA →
      ipTo4 ip = some ip4 →
      k.setAddElementsErr sA.tableName sA.name [ip4] = none →
      k.flushErr sA.tableName sA.name = none →
      k.setAddElementsErr sB.tableName sB.name [ip4] = none →
      k.flushErr sB.tableName sB.name = some e →
      (Manager.add k m d [ip] []).n = 1 ∧
      (Manager.add k m d [ip] []).err = some e ∧
      (Manager.add k m d [ip] []).calls =
        [KernelCall.addElements sA.tableName sA.name [ip4],
         KernelCall.flush sA.tableName sA.name,
         KernelCall.addElements sB.tableName sB.name [ip4],
         KernelCall.flush sB.tableName sB.name] ∧
      (Manager.add k m d [ip] []).m.addedIPs = ⟨ipsetKey sA, ipArr16 ip⟩ :: m.addedIPs ∧
      (⟨ipsetKey sB, ipArr16 ip⟩ : IpInIpsetEntry) ∉ (Manager.add k m d [ip] []).m.addedIPs) := by
  constructor
  · intro k m set ips e herr
    revert herr
    simp only [addIPs]
    split
    · intro h; simp at h
    · split
      · intro h; simp at h
      · split
        · intro _; exact ⟨rfl, rfl⟩
        · split
          · intro _; exact ⟨rfl, rfl⟩
          · intro h; simp at h
  · intro k m sA sB sC d ip ip4 e hl hktA hktB htoA hregA hncA hncB hkne h4 haeA hflA haeB hflB
    have hcA : collectElems m.addedIPs (ipsetKey sA) [ip] =
        ([ip4], [⟨ipsetKey sA, ipArr16 ip⟩]) := by
      simp [collectElems, hncA, h4]
    have hipsA : addIPs k m sA [ip] =
        ⟨1, none, { m with addedIPs := ⟨ipsetKey sA, ipArr16 ip⟩ :: m.addedIPs },
          [KernelCall.addElements sA.tableName sA.name [ip4],
           KernelCall.flush sA.tableName sA.name]⟩ := by
      simp [addIPs, hcA, haeA, hflA, recordEntries, hregA, htoA, cacheAdd, hncA]
    have hmemB : (⟨ipsetKey sB, ipArr16 ip⟩ : IpInIpsetEntry) ∉
        (⟨ipsetKey sA, ipArr16 ip⟩ :: m.addedIPs : List IpInIpsetEntry) := by
      intro hmem
      rcases List.mem_cons.mp hmem with heq | hmem'
      · exact hkne (congrArg IpInIpsetEntry.ipsetName heq)
      · exact hncB hmem'
    have hcB : collectElems (⟨ipsetKey sA, ipArr16 ip⟩ :: m.addedIPs) (ipsetKey sB) [ip] =
        ([ip4], [⟨ipsetKey sB, ipArr16 ip⟩]) := by
      simp [collectElems, h4, hmemB]
    have hipsB : addIPs k { m with addedIPs := ⟨ipsetKey sA, ipArr16 ip⟩ :: m.addedIPs } sB [ip] =
        ⟨0, some e, { m with addedIPs := ⟨ipsetKey sA, ipArr16 ip⟩ :: m.addedIPs },
          [KernelCall.addElements sB.tableName sB.name [ip4],
           KernelCall.flush sB.tableName sB.name]⟩ := by
      simp [addIPs, hcB, haeB, hflB]
    have e1 : Manager.add k m d [ip] [] =
        ⟨1, some e, { m with addedIPs := ⟨ipsetKey sA, ipArr16 ip⟩ :: m.addedIPs },
          [KernelCall.addElements sA.tableName sA.name [ip4],
           KernelCall.flush sA.tableName sA.name,
           KernelCall.addElements sB.tableName sB.name [ip4],
           KernelCall.flush sB.tableName sB.name]⟩ := by
      simp [Manager.add, hl, addToSets, hktA, hktB, hipsA, hipsB]
    rw [e1]
    exact ⟨rfl, rfl, rfl, rfl, hmemB⟩

theorem lookupHostFuel_const (d : List (Str × List NftSet)) (v0 : List NftSet)
    (hall : ∀ (s : Str) (v : List NftSet), mapFind d s = some v → v = v0)
    (hroot : mapFind d [] = some v0) :
    ∀ (fuel : Nat) (host : Str), lookupHostFuel d fuel host = v0 := by
  intro fuel
  induction fuel with
  | zero =>
    intro host
    simp only [lookupHostFuel]
    cases h : mapFind d host with
    | some v => exact hall host v h
    | none => simp [hroot]
  | succ f ih =>
    intro host
    simp only [lookupHostFuel]
    cases h : mapFind d host with
    | some v => exact hall host v h
    | none =>
      cases ha : afterDot host with
      | none => simp [hroot]
      | some rest => exact ih rest

/-- C10: the config line ",example.com/4#inet#t#s" — whose host list contains
an empty host — is accepted without error and registers the line's set under
the empty-string key, so every domain with no more specific match hits it:
here both table keys map to the same handle list, so every lookup whatsoever
returns it. -/
theorem claim_C10 :
    newManager kernelOK [",example.com/4#inet#t#s".toList] =
      .ok (⟨[("4#inet#t#s".toList, setTS)],
            [(([] : Str), [setTS]), ("example.com".toList, [setTS])], []⟩,
           [KernelCall.getSet "4#inet#t#s".toList "t".toList "s".toList]) ∧
    mapFind [(([] : Str), [setTS]), ("example.com".toList, [setTS])] [] = some [setTS] ∧
    (∀ host : Str,
      lookupHost [(([] : Str), [setTS]), ("example.com".toList, [setTS])] host = [setTS]) := by
  refine ⟨rfl, rfl, ?_⟩
  intro host
  apply lookupHostFuel_const
  · intro s v h
    simp only [mapFind] at h
    split_ifs at h <;> simp_all
  · rfl

/-! Lemmas on configuration parsing. -/

theorem trimNames_ok_of : ∀ xs : List Str, (∀ x ∈ xs, trimSpace x ≠ []) →
    trimNames xs = .ok (xs.map trimSpace) := by
  intro xs
  induction xs with
  | nil => intro _; rfl
  | cons x rest ih =>
    intro h
    have hx : trimSpace x ≠ [] := h x (List.mem_cons_self x rest)
    have hr := ih fun y hy => h y (List.mem_cons_of_mem x hy)
    simp only [trimNames, if_neg hx, hr, List.map_cons]

theorem trimNames_err_iff : ∀ xs : List Str,
    isErr (trimNames xs) = true ↔ ∃ x ∈ xs, trimSpace x = [] := by
  intro xs
  induction xs with
  | nil =>
    constructor
    · intro h; cases h
    · rintro ⟨y, hy, _⟩; cases hy
  | cons x rest ih =>
    by_cases hx : trimSpace x = []
    · constructor
      · intro _; exact ⟨x, List.mem_cons_self x rest, hx⟩
      · intro _; simp [trimNames, if_pos hx, isErr]
    · have hstep : trimNames (x :: rest) =
          match trimNames rest with
          | .error e => .error e
          | .ok t => .ok (trimSpace x :: t) := by
        simp [trimNames, if_neg hx]
      constructor
      · intro h
        rcases hr : trimNames rest with e | t
        · obtain ⟨y, hy, hty⟩ := ih.mp (by rw [hr]; rfl)
          exact ⟨y, List.mem_cons_of_mem x hy, hty⟩
        · rw [hstep, hr] at h; cases h
      · rintro ⟨y, hy, hty⟩
        rcases List.mem_cons.mp hy with rfl | hy'
        · exact absurd hty hx
        · have herr : isErr (trimNames rest) = true := ih.mpr ⟨y, hy', hty⟩
          rcases hr : trimNames rest with e | t
          · rw [hstep, hr]; rfl
          · rw [hr] at herr; cases herr

theorem parseLine_twoParts (line l r : Str) (hsp : splitOnChar '/' (trimSpace line) = [l, r]) :
    parseIpsetConfigLine line =
      (match trimNames (splitOnChar ',' r) with
        | .error e => .error e
        | .ok names =>
          .ok ((splitOnChar ',' l).map fun h => toLowerStr (trimSpace h), names)) ∧
    parseBad line = ((splitOnChar ',' r).any fun x => decide (trimSpace x = [])) ∧
    leftOf line = l ∧ rightOf line = r := by
  have hnn : splitOnChar ',' r ≠ [] := splitOnChar_ne_nil ',' r
  refine ⟨?_, ?_, ?_, ?_⟩
  · simp only [parseIpsetConfigLine]
    rw [hsp]
    dsimp only
    rw [if_neg hnn]
  · unfold parseBad
    rw [hsp]
  · unfold leftOf
    rw [hsp]
  · unfold rightOf
    rw [hsp]

theorem parseBad_of_shape (line : Str)
    (hshape : ∀ l r : Str, splitOnChar '/' (trimSpace line) ≠ [l, r]) :
    parseBad line = true := by
  unfold parseBad
  rcases hsp : splitOnChar '/' (trimSpace line) with _ | ⟨l, _ | ⟨r, _ | ⟨x, xs⟩⟩⟩
  · rfl
  · rfl
  · exact absurd hsp (hshape l r)
  · rfl

theorem parseLine_ok_of (line : Str) (h : parseBad line = false) :
    parseIpsetConfigLine line = .ok (hostsSpec line, namesSpec line) := by
  rcases hsp : splitOnChar '/' (trimSpace line) with _ | ⟨l, _ | ⟨r, _ | ⟨x, xs⟩⟩⟩
  · exfalso; unfold parseBad at h; rw [hsp] at h; cases h
  · exfalso; unfold parseBad at h; rw [hsp] at h; cases h
  · obtain ⟨hP, hB, hl, hr⟩ := parseLine_twoParts line l r hsp
    rw [hB] at h
    have hne : ∀ y ∈ splitOnChar ',' r, trimSpace y ≠ [] := by
      intro y hy hempty
      have : (splitOnChar ',' r).any (fun x => decide (trimSpace x = [])) = true :=
        List.any_eq_true.mpr ⟨y, hy, by simp [hempty]⟩
      rw [h] at this; cases this
    rw [hP, trimNames_ok_of (splitOnChar ',' r) hne]
    unfold hostsSpec namesSpec
    rw [hl, hr]
  · exfalso; unfold parseBad at h; rw [hsp] at h; cases h

theorem parseLine_err_iff (line : Str) :
    isErr (parseIpsetConfigLine line) = true ↔ parseBad line = true := by
  rcases hsp : splitOnChar '/' (trimSpace line) with _ | ⟨l, _ | ⟨r, _ | ⟨x, xs⟩⟩⟩
  · constructor
    · intro _; unfold parseBad; rw [hsp]
    · intro _; simp only [parseIpsetConfigLine]; rw [hsp]; rfl
  · constructor
    · intro _; unfold parseBad; rw [hsp]
    · intro _; simp only [parseIpsetConfigLine]; rw [hsp]; rfl
  · obtain ⟨hP, hB, _, _⟩ := parseLine_twoParts line l r hsp
    rw [hP, hB]
    rcases ht : trimNames (splitOnChar ',' r) with e | t
    · constructor
      · intro _
        obtain ⟨y, hy, hty⟩ := (trimNames_err_iff (splitOnChar ',' r)).mp (by rw [ht]; rfl)
        exact List.any_eq_true.mpr ⟨y, hy, by simp [hty]⟩
      · intro _; rfl
    · constructor
      · intro hfalse; cases hfalse
      · intro hany
        exfalso
        obtain ⟨y, hy, hty⟩ := List.any_eq_true.mp hany
        have herr : isErr (trimNames (splitOnChar ',' r)) = true :=
          (trimNames_err_iff _).mpr ⟨y, hy, by simpa using hty⟩
        rw [ht] at herr; cases herr
  · constructor
    · intro _; unfold parseBad; rw [hsp]
    · intro _; simp only [parseIpsetConfigLine]; rw [hsp]; rfl

theorem parseLine_ok_inv (line : Str) (hosts names : List Str)
    (h : parseIpsetConfigLine line = .ok (hosts, names)) :
    hosts = hostsSpec line ∧ names = namesSpec line ∧ parseBad line = false := by
  cases hpb : parseBad line with
  | true =>
    exfalso
    have := (parseLine_err_iff line).mpr hpb
    rw [h] at this
    cases this
  | false =>
    have := parseLine_ok_of line hpb
    rw [h] at this
    simp only [Except.ok.injEq, Prod.mk.injEq] at this
    exact ⟨this.1, this.2, rfl⟩

theorem resolveNames_err (k : Kernel) (idx : Nat) (line : Str) :
    ∀ (names : List Str) (cache : List (Str × NftSet)) (e : ConfigError),
      resolveNames k idx line cache names = .error e →
      ∃ msg, e = ConfigError.lineErr idx line msg := by
  intro names
  induction names with
  | nil => intro cache e h; simp [resolveNames] at h
  | cons n rest ih =>
    intro cache e h
    simp only [resolveNames] at h
    split at h
    · split at h
      · exact ⟨_, (Except.error.injEq _ _).mp h |>.symm⟩
      · split at h
        · exact ⟨_, (Except.error.injEq _ _).mp h |>.symm⟩
        · split at h
          · split at h
            · rename_i hrec
              obtain rfl := (Except.error.injEq _ _).mp h
              exact ih cache _ hrec
            · simp at h
          · split at h
            · exact ⟨_, (Except.error.injEq _ _).mp h |>.symm⟩
            · split at h
              · exact ⟨_, (Except.error.injEq _ _).mp h |>.symm⟩
              · split at h
                · rename_i hrec
                  obtain rfl := (Except.error.injEq _ _).mp h
                  exact ih _ _ hrec
                · simp at h
    · exact ⟨_, (Except.error.injEq _ _).mp h |>.symm⟩

theorem resolveNames_ok (k : Kernel) (idx : Nat) (line : Str) :
    ∀ (names : List Str) (cache c' : List (Str × NftSet)) (hs : List NftSet)
      (calls : List KernelCall),
      cacheCoherent k cache →
      resolveNames k idx line cache names = .ok (c', hs, calls) →
      hs = names.filterMap (specResolve k) ∧
      (∀ n ∈ names, specResolve k n ≠ none) ∧
      cacheCoherent k c' ∧
      (∀ x v, mapFind cache x = some v → mapFind c' x = some v) ∧
      (∀ c ∈ calls, ∃ t s, c = KernelCall.getSet (identOf c) t s) ∧
      (calls.map identOf).Nodup ∧
      (∀ c ∈ calls, mapFind cache (identOf c) = none ∧ mapFind c' (identOf c) ≠ none) := by
  intro names
  induction names with
  | nil =>
    intro cache c' hs calls hc h
    simp only [resolveNames, Except.ok.injEq, Prod.mk.injEq] at h
    obtain ⟨rfl, rfl, rfl⟩ := h
    refine ⟨rfl, ?_, hc, fun x v hv => hv, ?_, ?_, ?_⟩
    · intro n hn; cases hn
    · intro c hcm; cases hcm
    · simp
    · intro c hcm; cases hcm
  | cons n rest ih =>
    intro cache c' hs calls hc h
    simp only [resolveNames] at h
    split at h
    · rename_i p0 p1 tbl st hsp
      split at h
      · simp at h
      · rename_i hp0
        split at h
        · simp at h
        · rename_i hp1
          have hp0' : p0 = "4".toList := not_not.mp hp0
          have hp1' : p1 = "inet".toList := not_not.mp hp1
          split at h
          · rename_i set hhit
            split at h
            · simp at h
            · rename_i c hs' calls' hrec
              simp only [Except.ok.injEq, Prod.mk.injEq] at h
              obtain ⟨rfl, rfl, rfl⟩ := h
              have hres : specResolve k n = some set := hc n set hhit
              obtain ⟨h1, h2, h3, h4, h5, h6, h7⟩ := ih cache c hs' calls' hc hrec
              refine ⟨?_, ?_, h3, h4, h5, h6, h7⟩
              · simp only [List.filterMap_cons, hres]
                rw [h1]
              · intro n' hn'
                rcases List.mem_cons.mp hn' with rfl | hn'
                · rw [hres]; simp
                · exact h2 n' hn'
          · rename_i hmiss
            split at h
            · simp at h
            · rename_i kt ht hget
              split at h
              · simp at h
              · rename_i hkt
                have hkt' : kt = KeyType.ipAddr := not_not.mp hkt
                split at h
                · simp at h
                · rename_i c hs' calls' hrec
                  simp only [Except.ok.injEq, Prod.mk.injEq] at h
                  obtain ⟨rfl, rfl, rfl⟩ := h
                  have hres : specResolve k n = some ⟨tbl, st, kt, ht⟩ := by
                    unfold specResolve
                    rw [hsp]
                    dsimp only
                    rw [if_pos ⟨hp0', hp1'⟩, hget]
                    dsimp only
                    rw [if_pos hkt']
                  have hcoh2 : cacheCoherent k ((n, (⟨tbl, st, kt, ht⟩ : NftSet)) :: cache) := by
                    intro n' s' hfind
                    simp only [mapFind] at hfind
                    by_cases hnn : n = n'
                    · rw [if_pos hnn] at hfind
                      injection hfind with hfind
                      rw [← hnn, ← hfind]
                      exact hres
                    · rw [if_neg hnn] at hfind
                      exact hc n' s' hfind
                  obtain ⟨h1, h2, h3, h4, h5, h6, h7⟩ := ih _ c hs' calls' hcoh2 hrec
                  refine ⟨?_, ?_, h3, ?_, ?_, ?_, ?_⟩
                  · simp only [List.filterMap_cons, hres]
                    rw [h1]
                  · intro n' hn'
                    rcases List.mem_cons.mp hn' with rfl | hn'
                    · rw [hres]; simp
                    · exact h2 n' hn'
                  · intro x v hx
                    apply h4
                    simp only [mapFind]
                    rw [if_neg ?_]
                    · exact hx
                    · intro hxn
                      rw [← hxn, hmiss] at hx
                      cases hx
                  · intro c0 hc0
                    rcases List.mem_cons.mp hc0 with rfl | hc0
                    · exact ⟨tbl, st, rfl⟩
                    · exact h5 c0 hc0
                  · simp only [List.map_cons, List.nodup_cons]
                    constructor
                    · intro hmem
                      obtain ⟨c0, hc0, hident⟩ := List.mem_map.mp hmem
                      have hnone := (h7 c0 hc0).1
                      rw [hident] at hnone
                      simp [identOf, mapFind] at hnone
                    · exact h6
                  · intro c0 hc0
                    rcases List.mem_cons.mp hc0 with rfl | hc0
                    · constructor
                      · simpa [identOf] using hmiss
                      · have hself : mapFind ((n, (⟨tbl, st, kt, ht⟩ : NftSet)) :: cache) n =
                            some ⟨tbl, st, kt, ht⟩ := by simp [mapFind]
                        have h4' := h4 n _ hself
                        simp only [identOf]
                        rw [h4']
                        simp
                    · obtain ⟨ha, hb⟩ := h7 c0 hc0
                      refine ⟨?_, hb⟩
                      simp only [mapFind] at ha
                      by_cases hn0 : n = identOf c0
                      · rw [if_pos hn0] at ha; cases ha
                      · rw [if_neg hn0] at ha; exact ha
    · simp at h

theorem resolveNames_err_iff (k : Kernel) (idx : Nat) (line : Str) :
    ∀ (names : List Str) (cache : List (Str × NftSet)),
      cacheCoherent k cache →
      (isErr (resolveNames k idx line cache names) = true ↔
        ∃ n ∈ names, specResolve k n = none) := by
  intro names
  induction names with
  | nil =>
    intro cache hc
    constructor
    · intro h; cases h
    · rintro ⟨n, hn, _⟩; cases hn
  | cons n rest ih =>
    intro cache hc
    rcases hsp : splitOnChar '#' n with _ | ⟨p0, _ | ⟨p1, _ | ⟨tbl, _ | ⟨st, _ | ⟨y, ys⟩⟩⟩⟩⟩
    case nil =>
      constructor
      · intro _
        refine ⟨n, List.mem_cons_self n rest, ?_⟩
        unfold specResolve; rw [hsp]
      · intro _
        simp only [resolveNames]; rw [hsp]; rfl
    case cons.nil =>
      constructor
      · intro _
        refine ⟨n, List.mem_cons_self n rest, ?_⟩
        unfold specResolve; rw [hsp]
      · intro _
        simp only [resolveNames]; rw [hsp]; rfl
    case cons.cons.nil =>
      constructor
      · intro _
        refine ⟨n, List.mem_cons_self n rest, ?_⟩
        unfold specResolve; rw [hsp]
      · intro _
        simp only [resolveNames]; rw [hsp]; rfl
    case cons.cons.cons.cons.cons =>
      constructor
      · intro _
        refine ⟨n, List.mem_cons_self n rest, ?_⟩
        unfold specResolve; rw [hsp]
      · intro _
        simp only [resolveNames]; rw [hsp]; rfl
    case cons.cons.cons.nil =>
      constructor
      · intro _
        refine ⟨n, List.mem_cons_self n rest, ?_⟩
        unfold specResolve; rw [hsp]
      · intro _
        simp only [resolveNames]; rw [hsp]; rfl
    case cons.cons.cons.cons.nil =>
      by_cases hp0 : p0 = "4".toList
      · by_cases hp1 : p1 = "inet".toList
        · cases hhit : mapFind cache n with
          | some set =>
            have hres : specResolve k n = some set := hc n set hhit
            rcases hr : resolveNames k idx line cache rest with e | ⟨c, hs, calls⟩
            · have hval : resolveNames k idx line cache (n :: rest) = .error e := by
                simp only [resolveNames]; rw [hsp]; dsimp only
                rw [if_neg (not_not_intro hp0), if_neg (not_not_intro hp1), hhit]
                dsimp only
                rw [hr]
              constructor
              · intro _
                obtain ⟨n', hn', hsp'⟩ := (ih cache hc).mp (by rw [hr]; rfl)
                exact ⟨n', List.mem_cons_of_mem n hn', hsp'⟩
              · intro _
                rw [hval]; rfl
            · have hval : resolveNames k idx line cache (n :: rest) =
                  .ok (c, set :: hs, calls) := by
                simp only [resolveNames]; rw [hsp]; dsimp only
                rw [if_neg (not_not_intro hp0), if_neg (not_not_intro hp1), hhit]
                dsimp only
                rw [hr]
              constructor
              · intro hfalse
                rw [hval] at hfalse
                cases hfalse
              · rintro ⟨n', hn', hnone⟩
                exfalso
                rcases List.mem_cons.mp hn' with rfl | hn'
                · rw [hres] at hnone; cases hnone
                · have := (ih cache hc).mpr ⟨n', hn', hnone⟩
                  rw [hr] at this; cases this
          | none =>
            cases hget : k.getSetByName tbl st with
            | none =>
              have hval : isErr (resolveNames k idx line cache (n :: rest)) = true := by
                simp only [resolveNames]; rw [hsp]; dsimp only
                rw [if_neg (not_not_intro hp0), if_neg (not_not_intro hp1), hhit]
                dsimp only
                rw [hget]
                rfl
              have hspec : specResolve k n = none := by
                unfold specResolve; rw [hsp]; dsimp only
                rw [if_pos ⟨hp0, hp1⟩, hget]
              constructor
              · intro _
                exact ⟨n, List.mem_cons_self n rest, hspec⟩
              · intro _
                exact hval
            | some p =>
              obtain ⟨kt, ht⟩ := p
              by_cases hkt : kt = KeyType.ipAddr
              · have hres : specResolve k n = some ⟨tbl, st, kt, ht⟩ := by
                  unfold specResolve; rw [hsp]; dsimp only
                  rw [if_pos ⟨hp0, hp1⟩, hget]
                  dsimp only
                  rw [if_pos hkt]
                have hcoh2 : cacheCoherent k ((n, (⟨tbl, st, kt, ht⟩ : NftSet)) :: cache) := by
                  intro n' s' hfind
                  simp only [mapFind] at hfind
                  by_cases hnn : n = n'
                  · rw [if_pos hnn] at hfind
                    injection hfind with hfind
                    rw [← hnn, ← hfind]
                    exact hres
                  · rw [if_neg hnn] at hfind
                    exact hc n' s' hfind
                rcases hr : resolveNames k idx line ((n, (⟨tbl, st, kt, ht⟩ : NftSet)) :: cache)
                    rest with e | ⟨c, hs, calls⟩
                · have hval : resolveNames k idx line cache (n :: rest) = .error e := by
                    simp only [resolveNames]; rw [hsp]; dsimp only
                    rw [if_neg (not_not_intro hp0), if_neg (not_not_intro hp1), hhit]
                    dsimp only
                    rw [hget]
                    dsimp only
                    rw [if_neg (not_not_intro hkt)]
                    rw [hr]
                  constructor
                  · intro _
                    obtain ⟨n', hn', hsp'⟩ := (ih _ hcoh2).mp (by rw [hr]; rfl)
                    exact ⟨n', List.mem_cons_of_mem n hn', hsp'⟩
                  · intro _
                    rw [hval]; rfl
                · have hval : resolveNames k idx line cache (n :: rest) =
                      .ok (c, (⟨tbl, st, kt, ht⟩ : NftSet) :: hs,
                        KernelCall.getSet n tbl st :: calls) := by
                    simp only [resolveNames]; rw [hsp]; dsimp only
                    rw [if_neg (not_not_intro hp0), if_neg (not_not_intro hp1), hhit]
                    dsimp only
                    rw [hget]
                    dsimp only
                    rw [if_neg (not_not_intro hkt)]
                    rw [hr]
                  constructor
                  · intro hfalse
                    rw [hval] at hfalse
                    cases hfalse
                  · rintro ⟨n', hn', hnone⟩
                    exfalso
                    rcases List.mem_cons.mp hn' with rfl | hn'
                    · rw [hres] at hnone; cases hnone
                    · have := (ih _ hcoh2).mpr ⟨n', hn', hnone⟩
                      rw [hr] at this; cases this
              · have hval : isErr (resolveNames k idx line cache (n :: rest)) = true := by
                  simp only [resolveNames]; rw [hsp]; dsimp only
                  rw [if_neg (not_not_intro hp0), if_neg (not_not_intro hp1), hhit]
                  dsimp only
                  rw [hget]
                  dsimp only
                  rw [if_pos hkt]
                  rfl
                have hspec : specResolve k n = none := by
                  unfold specResolve; rw [hsp]; dsimp only
                  rw [if_pos ⟨hp0, hp1⟩, hget]
                  dsimp only
                  rw [if_neg hkt]
                constructor
                · intro _
                  exact ⟨n, List.mem_cons_self n rest, hspec⟩
                · intro _
                  exact hval
        · have hval : isErr (resolveNames k idx line cache (n :: rest)) = true := by
            simp only [resolveNames]; rw [hsp]; dsimp only
            rw [if_neg (not_not_intro hp0), if_pos hp1]
            rfl
          have hspec : specResolve k n = none := by
            unfold specResolve; rw [hsp]; dsimp only
            rw [if_neg fun hand => hp1 hand.2]
          constructor
          · intro _
            exact ⟨n, List.mem_cons_self n rest, hspec⟩
          · intro _
            exact hval
      · have hval : isErr (resolveNames k idx line cache (n :: rest)) = true := by
          simp only [resolveNames]; rw [hsp]; dsimp only
          rw [if_pos hp0]
          rfl
        have hspec : specResolve k n = none := by
          unfold specResolve; rw [hsp]; dsimp only
          rw [if_neg fun hand => hp0 hand.1]
        constructor
        · intro _
          exact ⟨n, List.mem_cons_self n rest, hspec⟩
        · intro _
          exact hval

theorem mapFind_mapAppend_getD (t : List (Str × List NftSet)) (key : Str) (vs : List NftSet)
    (dom : Str) :
    (mapFind (mapAppend t key vs) dom).getD [] =
      (mapFind t dom).getD [] ++ (if key = dom then vs else []) := by
  induction t with
  | nil => by_cases h : key = dom <;> simp [mapAppend, mapFind, h]
  | cons p rest ih =>
    obtain ⟨a, b⟩ := p
    by_cases hak : a = key
    · subst hak
      by_cases had : a = dom
      · simp [mapAppend, mapFind, had]
      · simp [mapAppend, mapFind, had]
    · by_cases had : a = dom
      · have hkd : ¬key = dom := fun hkdeq => hak (by rw [had, hkdeq])
        have hdk : ¬dom = key := fun hdkeq => hkd hdkeq.symm
        simp [mapAppend, mapFind, hak, had, hkd, hdk]
      · simp [mapAppend, mapFind, hak, had, ih]

theorem foldl_mapAppend_getD (vs : List NftSet) (dom : Str) :
    ∀ (hosts : List Str) (t : List (Str × List NftSet)),
      (mapFind (hosts.foldl (fun t h => mapAppend t h vs) t) dom).getD [] =
        (mapFind t dom).getD [] ++ repList (countKey dom hosts) vs := by
  intro hosts
  induction hosts with
  | nil => intro t; simp [countKey, repList]
  | cons h hs ih =>
    intro t
    rw [List.foldl_cons, ih (mapAppend t h vs), mapFind_mapAppend_getD]
    by_cases hd : h = dom
    · rw [if_pos hd]
      have hck : countKey dom (h :: hs) = countKey dom hs + 1 := by
        simp [countKey, hd, Nat.add_comm]
      rw [hck]
      show (mapFind t dom).getD [] ++ vs ++ repList (countKey dom hs) vs =
        (mapFind t dom).getD [] ++ (vs ++ repList (countKey dom hs) vs)
      rw [List.append_assoc]
    · rw [if_neg hd]
      have hck : countKey dom (h :: hs) = countKey dom hs := by simp [countKey, hd]
      rw [hck, List.append_nil]

theorem parseConfig_ok (k : Kernel) :
    ∀ (lines : List Str) (idx : Nat) (m mf : Manager) (calls : List KernelCall),
      cacheCoherent k m.nameToIpset →
      parseIpsetConfig k idx m lines = .ok (mf, calls) →
      mf.addedIPs = m.addedIPs ∧
      cacheCoherent k mf.nameToIpset ∧
      (∀ x v, mapFind m.nameToIpset x = some v → mapFind mf.nameToIpset x = some v) ∧
      (∀ c ∈ calls, ∃ t s, c = KernelCall.getSet (identOf c) t s) ∧
      (calls.map identOf).Nodup ∧
      (∀ c ∈ calls, mapFind m.nameToIpset (identOf c) = none ∧
        mapFind mf.nameToIpset (identOf c) ≠ none) ∧
      (∀ dom, (mapFind mf.domainToIpsets dom).getD [] =
        (mapFind m.domainToIpsets dom).getD [] ++ tableSpec k dom lines) := by
  intro lines
  induction lines with
  | nil =>
    intro idx m mf calls hc h
    simp only [parseIpsetConfig, Except.ok.injEq, Prod.mk.injEq] at h
    obtain ⟨rfl, rfl⟩ := h
    refine ⟨rfl, hc, fun x v hv => hv, ?_, ?_, ?_, ?_⟩
    · intro c hcm; cases hcm
    · simp
    · intro c hcm; cases hcm
    · intro dom; simp [tableSpec]
  | cons l rest ih =>
    intro idx m mf calls hc h
    simp only [parseIpsetConfig] at h
    split at h
    · simp at h
    · rename_i hosts names hline
      split at h
      · simp at h
      · rename_i cache ipsets calls1 hres
        split at h
        · simp at h
        · rename_i mFin calls2 hrec
          simp only [Except.ok.injEq, Prod.mk.injEq] at h
          obtain ⟨rfl, rfl⟩ := h
          obtain ⟨hhosts, hnames, hpb⟩ := parseLine_ok_inv l hosts names hline
          obtain ⟨r1, r2, r3, r4, r5, r6, r7⟩ :=
            resolveNames_ok k idx l names m.nameToIpset cache ipsets calls1 hc hres
          obtain ⟨i1, i2, i3, i4, i5, i6, i7⟩ := ih (idx + 1) _ mFin calls2 r3 hrec
          refine ⟨i1, i2, ?_, ?_, ?_, ?_, ?_⟩
          · exact fun x v hv => i3 x v (r4 x v hv)
          · intro c hc0
            rcases List.mem_append.mp hc0 with hc0 | hc0
            · exact r5 c hc0
            · exact i4 c hc0
          · rw [List.map_append]
            refine List.Nodup.append r6 i5 ?_
            intro a ha1 ha2
            obtain ⟨c1, hc1, rfl⟩ := List.mem_map.mp ha1
            obtain ⟨c2, hc2, heq2⟩ := List.mem_map.mp ha2
            have hn2 : mapFind cache (identOf c2) = none := (i6 c2 hc2).1
            have hn1 : mapFind cache (identOf c1) ≠ none := (r7 c1 hc1).2
            rw [heq2] at hn2
            exact hn1 hn2
          · intro c hc0
            rcases List.mem_append.mp hc0 with hc0 | hc0
            · refine ⟨(r7 c hc0).1, ?_⟩
              rcases hfind : mapFind cache (identOf c) with _ | v
              · exact absurd hfind (r7 c hc0).2
              · have := i3 (identOf c) v hfind
                rw [this]
                simp
            · refine ⟨?_, (i6 c hc0).2⟩
              rcases hm0 : mapFind m.nameToIpset (identOf c) with _ | v
              · rfl
              · have := r4 (identOf c) v hm0
                rw [(i6 c hc0).1] at this
                cases this
          · intro dom
            have hi : (mapFind mFin.domainToIpsets dom).getD [] =
                (mapFind (hosts.foldl (fun t h => mapAppend t h ipsets) m.domainToIpsets)
                  dom).getD [] ++ tableSpec k dom rest := i7 dom
            rw [foldl_mapAppend_getD] at hi
            rw [hi, List.append_assoc]
            have hsets : ipsets = lineSetsSpec k l := by
              rw [r1, hnames]; rfl
            rw [hsets, hhosts]
            rfl

theorem parseConfig_err_iff (k : Kernel) :
    ∀ (lines : List Str) (idx : Nat) (m : Manager),
      cacheCoherent k m.nameToIpset →
      (isErr (parseIpsetConfig k idx m lines) = true ↔
        ∃ l ∈ lines, parseBad l = true ∨ ∃ n ∈ namesSpec l, specResolve k n = none) := by
  intro lines
  induction lines with
  | nil =>
    intro idx m hc
    constructor
    · intro h; cases h
    · rintro ⟨l, hl, _⟩; cases hl
  | cons l rest ih =>
    intro idx m hc
    rcases hpl : parseIpsetConfigLine l with msg | ⟨hosts, names⟩
    · have hval : parseIpsetConfig k idx m (l :: rest) = .error (.lineErr idx l msg) := by
        simp only [parseIpsetConfig]; rw [hpl]
      have hbad : parseBad l = true := (parseLine_err_iff l).mp (by rw [hpl]; rfl)
      constructor
      · intro _; exact ⟨l, List.mem_cons_self l rest, Or.inl hbad⟩
      · intro _; rw [hval]; rfl
    · obtain ⟨hhosts, hnames, hpb⟩ := parseLine_ok_inv l hosts names hpl
      rcases hres : resolveNames k idx l m.nameToIpset names with e | ⟨cache, ipsets, calls1⟩
      · have hval : parseIpsetConfig k idx m (l :: rest) = .error e := by
          simp only [parseIpsetConfig]; rw [hpl]; dsimp only; rw [hres]
        have hex : ∃ n ∈ names, specResolve k n = none :=
          (resolveNames_err_iff k idx l names m.nameToIpset hc).mp (by rw [hres]; rfl)
        constructor
        · intro _
          obtain ⟨n, hn, hnone⟩ := hex
          exact ⟨l, List.mem_cons_self l rest, Or.inr ⟨n, hnames ▸ hn, hnone⟩⟩
        · intro _; rw [hval]; rfl
      · obtain ⟨r1, r2, r3, r4, r5, r6, r7⟩ :=
          resolveNames_ok k idx l names m.nameToIpset cache ipsets calls1 hc hres
        have hnores : ∀ n ∈ namesSpec l, specResolve k n ≠ none := by
          rw [← hnames]; exact r2
        rcases hrec : parseIpsetConfig k (idx + 1)
            ⟨cache, hosts.foldl (fun t h => mapAppend t h ipsets) m.domainToIpsets, m.addedIPs⟩
            rest with e2 | ⟨m2, c2⟩
        · have hval : parseIpsetConfig k idx m (l :: rest) = .error e2 := by
            simp only [parseIpsetConfig]; rw [hpl]; dsimp only; rw [hres]; dsimp only; rw [hrec]
          have hex := (ih (idx + 1)
            ⟨cache, hosts.foldl (fun t h => mapAppend t h ipsets) m.domainToIpsets, m.addedIPs⟩
            r3).mp (by rw [hrec]; rfl)
          constructor
          · intro _
            obtain ⟨l', hl', hcase⟩ := hex
            exact ⟨l', List.mem_cons_of_mem l hl', hcase⟩
          · intro _; rw [hval]; rfl
        · have hval : parseIpsetConfig k idx m (l :: rest) = .ok (m2, calls1 ++ c2) := by
            simp only [parseIpsetConfig]; rw [hpl]; dsimp only; rw [hres]; dsimp only; rw [hrec]
          constructor
          · intro hfalse; rw [hval] at hfalse; cases hfalse
          · rintro ⟨l', hl', hcase⟩
            exfalso
            rcases List.mem_cons.mp hl' with rfl | hl'
            · rcases hcase with hb | ⟨n, hn, hnone⟩
              · rw [hpb] at hb; cases hb
              · exact hnores n hn hnone
            · have := (ih (idx + 1)
                ⟨cache, hosts.foldl (fun t h => mapAppend t h ipsets) m.domainToIpsets,
                  m.addedIPs⟩ r3).mpr ⟨l', hl', hcase⟩
              rw [hrec] at this; cases this

theorem parseConfig_err_names (k : Kernel) :
    ∀ (lines : List Str) (idx : Nat) (m : Manager) (j : Nat) (line : Str) (msg : String),
      cacheCoherent k m.nameToIpset →
      parseIpsetConfig k idx m lines = .error (.lineErr j line msg) →
      ∃ d, lines.get? d = some line ∧ j = idx + d ∧
        (parseBad line = true ∨ ∃ n ∈ namesSpec line, specResolve k n = none) := by
  intro lines
  induction lines with
  | nil =>
    intro idx m j line msg hc h
    simp [parseIpsetConfig] at h
  | cons l rest ih =>
    intro idx m j line msg hc h
    rcases hpl : parseIpsetConfigLine l with msg0 | ⟨hosts, names⟩
    · have hval : parseIpsetConfig k idx m (l :: rest) = .error (.lineErr idx l msg0) := by
        simp only [parseIpsetConfig]; rw [hpl]
      rw [hval] at h
      injection h with h
      injection h with h1 h2 h3
      subst h1; subst h2
      refine ⟨0, rfl, by omega, Or.inl ?_⟩
      exact (parseLine_err_iff l).mp (by rw [hpl]; rfl)
    · obtain ⟨hhosts, hnames, hpb⟩ := parseLine_ok_inv l hosts names hpl
      rcases hres : resolveNames k idx l m.nameToIpset names with e | ⟨cache, ipsets, calls1⟩
      · have hval : parseIpsetConfig k idx m (l :: rest) = .error e := by
          simp only [parseIpsetConfig]; rw [hpl]; dsimp only; rw [hres]
        rw [hval] at h
        injection h with h
        obtain ⟨msg', hmsg'⟩ := resolveNames_err k idx l names m.nameToIpset e hres
        rw [hmsg'] at h
        injection h with h1 h2 h3
        subst h1; subst h2
        have hex : ∃ n ∈ names, specResolve k n = none :=
          (resolveNames_err_iff k idx l names m.nameToIpset hc).mp (by rw [hres, hmsg']; rfl)
        refine ⟨0, rfl, by omega, Or.inr ?_⟩
        obtain ⟨n, hn, hnone⟩ := hex
        exact ⟨n, hnames ▸ hn, hnone⟩
      · obtain ⟨r1, r2, r3, r4, r5, r6, r7⟩ :=
          resolveNames_ok k idx l names m.nameToIpset cache ipsets calls1 hc hres
        rcases hrec : parseIpsetConfig k (idx + 1)
            ⟨cache, hosts.foldl (fun t h => mapAppend t h ipsets) m.domainToIpsets, m.addedIPs⟩
            rest with e2 | ⟨m2, c2⟩
        · have hval : parseIpsetConfig k idx m (l :: rest) = .error e2 := by
            simp only [parseIpsetConfig]; rw [hpl]; dsimp only; rw [hres]; dsimp only; rw [hrec]
          rw [hval] at h
          injection h with h
          subst h
          obtain ⟨d, hd1, hd2, hd3⟩ := ih (idx + 1)
            ⟨cache, hosts.foldl (fun t h => mapAppend t h ipsets) m.domainToIpsets, m.addedIPs⟩
            j line msg r3 hrec
          refine ⟨d + 1, by simpa using hd1, by omega, hd3⟩
        · have hval : parseIpsetConfig k idx m (l :: rest) = .ok (m2, calls1 ++ c2) := by
            simp only [parseIpsetConfig]; rw [hpl]; dsimp only; rw [hres]; dsimp only; rw [hrec]
          rw [hval] at h
          cases h

theorem specResolve_none_iff_identBad (k : Kernel)
    (hk : ∀ t s, ∃ ht, k.getSetByName t s = some (KeyType.ipAddr, ht)) (n : Str) :
    specResolve k n = none ↔ identBad n = true := by
  rcases hsp : splitOnChar '#' n with _ | ⟨p0, _ | ⟨p1, _ | ⟨tbl, _ | ⟨st, _ | ⟨y, ys⟩⟩⟩⟩⟩
  case nil =>
    constructor
    · intro _; unfold identBad; rw [hsp]
    · intro _; unfold specResolve; rw [hsp]
  case cons.nil =>
    constructor
    · intro _; unfold identBad; rw [hsp]
    · intro _; unfold specResolve; rw [hsp]
  case cons.cons.nil =>
    constructor
    · intro _; unfold identBad; rw [hsp]
    · intro _; unfold specResolve; rw [hsp]
  case cons.cons.cons.nil =>
    constructor
    · intro _; unfold identBad; rw [hsp]
    · intro _; unfold specResolve; rw [hsp]
  case cons.cons.cons.cons.cons =>
    constructor
    · intro _; unfold identBad; rw [hsp]
    · intro _; unfold specResolve; rw [hsp]
  case cons.cons.cons.cons.nil =>
    by_cases hp : p0 = "4".toList ∧ p1 = "inet".toList
    · obtain ⟨ht, hget⟩ := hk tbl st
      have hsome : specResolve k n = some ⟨tbl, st, KeyType.ipAddr, ht⟩ := by
        unfold specResolve; rw [hsp]; dsimp only
        rw [if_pos hp, hget]
        dsimp only
        rw [if_pos rfl]
      have hbad : identBad n = false := by
        unfold identBad; rw [hsp]; dsimp only
        simp [hp.1, hp.2]
      rw [hsome, hbad]
      simp
    · have hnone : specResolve k n = none := by
        unfold specResolve; rw [hsp]; dsimp only
        rw [if_neg hp]
      have hbad : identBad n = true := by
        unfold identBad; rw [hsp]; dsimp only
        rcases not_and_or.mp hp with hx | hx
        · simp
          exact Or.inl hx
        · simp
          exact Or.inr hx
      rw [hnone, hbad]
      simp

theorem specResolve_none_iff_not_resolvable (k : Kernel) (n : Str)
    (hshape : identBad n = false) :
    specResolve k n = none ↔ identResolvable k n = false := by
  rcases hsp : splitOnChar '#' n with _ | ⟨p0, _ | ⟨p1, _ | ⟨tbl, _ | ⟨st, _ | ⟨y, ys⟩⟩⟩⟩⟩
  case nil => exfalso; unfold identBad at hshape; rw [hsp] at hshape; cases hshape
  case cons.nil => exfalso; unfold identBad at hshape; rw [hsp] at hshape; cases hshape
  case cons.cons.nil => exfalso; unfold identBad at hshape; rw [hsp] at hshape; cases hshape
  case cons.cons.cons.nil =>
    exfalso; unfold identBad at hshape; rw [hsp] at hshape; cases hshape
  case cons.cons.cons.cons.cons =>
    exfalso; unfold identBad at hshape; rw [hsp] at hshape; cases hshape
  case cons.cons.cons.cons.nil =>
    have hp : p0 = "4".toList ∧ p1 = "inet".toList := by
      unfold identBad at hshape
      rw [hsp] at hshape
      dsimp only at hshape
      simp at hshape
      exact hshape
    cases hget : k.getSetByName tbl st with
    | none =>
      have h1 : specResolve k n = none := by
        unfold specResolve; rw [hsp]; dsimp only
        rw [if_pos hp, hget]
      have h2 : identResolvable k n = false := by
        unfold identResolvable; rw [hsp]; dsimp only
        rw [hget]
      rw [h1, h2]
      simp
    | some p =>
      obtain ⟨kt, ht⟩ := p
      by_cases hkt : kt = KeyType.ipAddr
      · have h1 : specResolve k n = some ⟨tbl, st, kt, ht⟩ := by
          unfold specResolve; rw [hsp]; dsimp only
          rw [if_pos hp, hget]
          dsimp only
          rw [if_pos hkt]
        have h2 : identResolvable k n = true := by
          unfold identResolvable; rw [hsp]; dsimp only
          rw [hget]
          dsimp only
          simp [hkt]
        rw [h1, h2]
        simp
      · have h1 : specResolve k n = none := by
          unfold specResolve; rw [hsp]; dsimp only
          rw [if_pos hp, hget]
          dsimp only
          rw [if_neg hkt]
        have h2 : identResolvable k n = false := by
          unfold identResolvable; rw [hsp]; dsimp only
          rw [hget]
          dsimp only
          simp [hkt]
        rw [h1, h2]
        simp

/-- C4: with a kernel on which every set resolves as IPv4, manager
construction fails exactly when some config line is malformed in the stated
sense — not exactly one '/' (the number of parts of a split being the
separator count plus one), an identifier trimming to empty, not exactly four
'#'-fields, or a first field other than "4" or second other than "inet" —
and the error names the offending line's index and raw text; a well-formed
line's hosts are split on ',', trimmed and lowercased, and its identifiers
trimmed. -/
theorem claim_C4 (k : Kernel)
    (hk : ∀ t s, ∃ ht, k.getSetByName t s = some (KeyType.ipAddr, ht)) (lines : List Str) :
    (isErr (newManager k lines) = true ↔ ∃ l ∈ lines, lineMalformed l = true) ∧
    (∀ j line msg, newManager k lines = .error (.lineErr j line msg) →
      lines.get? j = some line ∧ lineMalformed line = true) ∧
    (∀ line, lineMalformed line = false →
      parseIpsetConfigLine line = .ok (hostsSpec line, namesSpec line)) ∧
    (∀ s : Str, (splitOnChar '/' s).length = countChar '/' s + 1) := by
  have hcE : cacheCoherent k (⟨[], [], []⟩ : Manager).nameToIpset := fun n s h => by cases h
  have htrans : ∀ line,
      (parseBad line = true ∨ ∃ n ∈ namesSpec line, specResolve k n = none) ↔
      lineMalformed line = true := by
    intro line
    unfold lineMalformed
    rw [Bool.or_eq_true, List.any_eq_true]
    constructor
    · rintro (hb | ⟨n, hn, hnone⟩)
      · exact Or.inl hb
      · exact Or.inr ⟨n, hn, (specResolve_none_iff_identBad k hk n).mp hnone⟩
    · rintro (hb | ⟨n, hn, hbad⟩)
      · exact Or.inl hb
      · exact Or.inr ⟨n, hn, (specResolve_none_iff_identBad k hk n).mpr hbad⟩
  refine ⟨?_, ?_, ?_, splitOnChar_length '/'⟩
  · unfold newManager
    rw [parseConfig_err_iff k lines 0 ⟨[], [], []⟩ hcE]
    constructor
    · rintro ⟨l, hl, hcase⟩; exact ⟨l, hl, (htrans l).mp hcase⟩
    · rintro ⟨l, hl, hm⟩; exact ⟨l, hl, (htrans l).mpr hm⟩
  · intro j line msg h
    obtain ⟨d, hd1, hd2, hd3⟩ :=
      parseConfig_err_names k lines 0 ⟨[], [], []⟩ j line msg hcE h
    have hjd : j = d := by omega
    subst hjd
    exact ⟨hd1, (htrans line).mp hd3⟩
  · intro line hlm
    have hpb : parseBad line = false := by
      unfold lineMalformed at hlm
      exact (Bool.or_eq_false_iff.mp hlm).1
    exact parseLine_ok_of line hpb

/-- C5: during manager construction at most one control-plane getSetByName
query is issued per distinct identifier — the trace's cached-identifier list
has no duplicates and every trace entry is a getSet call — and, for a config
whose lines are all well-formed, construction fails exactly when some
referenced identifier names a set that does not exist in the kernel or whose
key type is not IPv4-address. -/
theorem claim_C5 (k : Kernel) (lines : List Str) :
    (∀ m tr, newManager k lines = .ok (m, tr) →
      (tr.map identOf).Nodup ∧ ∀ c ∈ tr, ∃ t s, c = KernelCall.getSet (identOf c) t s) ∧
    ((∀ l ∈ lines, lineMalformed l = false) →
      (isErr (newManager k lines) = true ↔
        ∃ l ∈ lines, ∃ n ∈ namesSpec l, identResolvable k n = false)) := by
  have hcE : cacheCoherent k (⟨[], [], []⟩ : Manager).nameToIpset := fun n s h => by cases h
  constructor
  · intro m tr h
    obtain ⟨_, _, _, c4, c5, _, _⟩ := parseConfig_ok k lines 0 ⟨[], [], []⟩ m tr hcE h
    exact ⟨c5, c4⟩
  · intro hall
    have hident : ∀ l ∈ lines, ∀ n ∈ namesSpec l, identBad n = false := by
      intro l hl n hn
      have hlm := hall l hl
      unfold lineMalformed at hlm
      have := (Bool.or_eq_false_iff.mp hlm).2
      rw [List.any_eq_false] at this
      have hn' := this n hn
      simpa using hn'
    unfold newManager
    rw [parseConfig_err_iff k lines 0 ⟨[], [], []⟩ hcE]
    constructor
    · rintro ⟨l, hl, hcase⟩
      rcases hcase with hb | ⟨n, hn, hnone⟩
      · exfalso
        have hlm := hall l hl
        unfold lineMalformed at hlm
        rw [(Bool.or_eq_false_iff.mp hlm).1] at hb
        cases hb
      · exact ⟨l, hl, n, hn,
          (specResolve_none_iff_not_resolvable k n (hident l hl n hn)).mp hnone⟩
    · rintro ⟨l, hl, n, hn, hres⟩
      exact ⟨l, hl, Or.inr ⟨n, hn,
        (specResolve_none_iff_not_resolvable k n (hident l hl n hn)).mpr hres⟩⟩

/-- C9: after construction the rule-table entry of a domain is the
concatenation, in line order, of the handle lists of every line registering
that domain (once per occurrence of the domain among the line's hosts), and
Add never modifies the rule table or the handle registry. -/
theorem claim_C9 (k : Kernel) (lines : List Str) :
    (∀ m tr, newManager k lines = .ok (m, tr) →
      ∀ dom, (mapFind m.domainToIpsets dom).getD [] = tableSpec k dom lines) ∧
    (∀ (k' : Kernel) (m : Manager) (d : Str) (ip4s ip6s : List IPBytes),
      (Manager.add k' m d ip4s ip6s).m.domainToIpsets = m.domainToIpsets ∧
      (Manager.add k' m d ip4s ip6s).m.nameToIpset = m.nameToIpset) := by
  have hcE : cacheCoherent k (⟨[], [], []⟩ : Manager).nameToIpset := fun n s h => by cases h
  constructor
  · intro m tr h dom
    obtain ⟨_, _, _, _, _, _, c7⟩ := parseConfig_ok k lines 0 ⟨[], [], []⟩ m tr hcE h
    have := c7 dom
    simpa [mapFind] using this
  · intro k' m d i4 i6
    exact ⟨(managerAdd_frame k' m d i4 i6).2, (managerAdd_frame k' m d i4 i6).1⟩

/-! Witnesses instantiating the theorems with hypotheses at concrete inputs. -/

theorem claim_C1_witness :
    (Manager.add kernelOK mC1 "example.com".toList [[1, 2, 3, 4]] []).n = 1 :=
  (claim_C1 kernelOK mC1 setTS "example.com".toList [1, 2, 3, 4] [1, 2, 3, 4]
    (by decide) (by decide) (by decide) (by decide) (by decide) (by decide)
    (by decide) (by decide)).1

theorem claim_C2_witness :
    lookupHost dC2 "x.a.example.com".toList = [setA] :=
  (claim_C2 dC2 [setB] [setA] (by decide) (by decide) (by decide) (by decide)).2.1

theorem claim_C3_witness :
    (Manager.add kernelFlushB mC3 "example.com".toList [[1, 2, 3, 4]] []).n = 1 ∧
    (Manager.add kernelFlushB mC3 "example.com".toList [[1, 2, 3, 4]] []).err =
      some "flush failed" :=
  ⟨(claim_C3.2 kernelFlushB mC3 setA setB setC "example.com".toList [1, 2, 3, 4] [1, 2, 3, 4]
      "flush failed" (by decide) (by decide) (by decide) (by decide) (by decide) (by decide)
      (by decide) (by decide) (by decide) (by decide) (by decide) (by decide) (by decide)).1,
   (claim_C3.2 kernelFlushB mC3 setA setB setC "example.com".toList [1, 2, 3, 4] [1, 2, 3, 4]
      "flush failed" (by decide) (by decide) (by decide) (by decide) (by decide) (by decide)
      (by decide) (by decide) (by decide) (by decide) (by decide) (by decide) (by decide)).2.1⟩

theorem claim_C6_witness :
    (Manager.add kernelTimeout mC6 "example.com".toList [[1, 2, 3, 4]] []).n = 1 ∧
    (Manager.add kernelTimeout mC6 "example.com".toList [[1, 2, 3, 4]] []).m = mC6 :=
  ⟨(claim_C6.2.2 kernelTimeout mC6 setTimeout "example.com".toList [1, 2, 3, 4] [1, 2, 3, 4]
      (by decide) (by decide) (by decide) (by decide) (by decide) (by decide) (by decide)
      (by decide)).1,
   (claim_C6.2.2 kernelTimeout mC6 setTimeout "example.com".toList [1, 2, 3, 4] [1, 2, 3, 4]
      (by decide) (by decide) (by decide) (by decide) (by decide) (by decide) (by decide)
      (by decide)).2.2.2.1⟩

theorem claim_C7_witness :
    Manager.add kernelOK ⟨[], [], []⟩ "unknown-domain".toList [[1, 2, 3, 4]] [] =
      ⟨0, none, ⟨[], [], []⟩, []⟩ :=
  claim_C7 kernelOK ⟨[], [], []⟩ "unknown-domain".toList [[1, 2, 3, 4]] [] (by decide)

theorem claim_C8_witness :
    addToSets kernelOK ⟨[], [], []⟩ [[1, 2, 3, 4]] [[0, 0, 0, 1]] [set6] =
      ⟨0, none, ⟨[], [], []⟩, []⟩ :=
  claim_C8.2.2.2 kernelOK ⟨[], [], []⟩ [[1, 2, 3, 4]] [[0, 0, 0, 1]] [set6] (by decide)

theorem claim_C4_witness :
    isErr (newManager kernelOK ["good.com/4#inet#t#s".toList, "bad".toList]) = true :=
  (claim_C4 kernelOK (fun t s => ⟨false, rfl⟩)
    ["good.com/4#inet#t#s".toList, "bad".toList]).1.mpr
    ⟨"bad".toList, by decide, by decide⟩

theorem claim_C5_witness :
    (tr5V.map identOf).Nodup ∧
    (isErr (newManager kernelOK lines5V) = true ↔
      ∃ l ∈ lines5V, ∃ n ∈ namesSpec l, identResolvable kernelOK n = false) :=
  ⟨((claim_C5 kernelOK lines5V).1 m5V tr5V rfl).1,
   (claim_C5 kernelOK lines5V).2 (by decide)⟩

theorem claim_C9_witness :
    (mapFind m9V.domainToIpsets "a.com".toList).getD [] =
      tableSpec kernelOK "a.com".toList lines9V :=
  (claim_C9 kernelOK lines9V).1 m9V tr9V rfl "a.com".toList

end IpsetMgr
